import Mathlib

/-!
Verification of the `RotatableSet` rotating-set engine (the canonical variant
with the `insertionHead` anchor) from `rotatable-array`.

The TypeScript class mutates a circular doubly-linked structure of `RingNode`
objects.  We embed it shallowly: object references become node ids (`Nat`),
memory becomes a total function from ids to `RingNode` records, and each
method becomes a pure function on an explicit `RotatableSet` state record.
A fresh-id counter models JavaScript object allocation.  The JS `Map` that
indexes values is modelled by an insertion-ordered association list with
`Map`-style operations.
-/

namespace RotSpec

/-- `class RingNode<T> { value; next; prev }` — neighbour references become
node ids into the heap. -/
structure RingNode (T : Type) where
  value : T
  next : Nat
  prev : Nat
deriving DecidableEq, Repr

/-- The mutable fields of `class RotatableSet<T>`: the heap of allocated
`RingNode` objects (total over ids; ids ≥ `fresh` are unallocated garbage),
`current` and `insertionHead` node references (`null` = `none`), the
`nodes` member map, and `_size`.  `fresh` is the allocator counter. -/
structure RotatableSet (T : Type) where
  heap : Nat → RingNode T
  current : Option Nat
  insertionHead : Option Nat
  nodes : List (T × Nat)
  size : Nat
  fresh : Nat

variable {T : Type}

/-! ### JS `Map` model (insertion-ordered association list) -/

/-- `Map.has`. -/
def mapHas [DecidableEq T] (m : List (T × Nat)) (k : T) : Bool :=
  m.any (fun p => decide (p.1 = k))

/-- `Map.get` (returns `undefined` = `none` when absent). -/
def mapGet [DecidableEq T] (m : List (T × Nat)) (k : T) : Option Nat :=
  (m.find? (fun p => decide (p.1 = k))).map Prod.snd

/-- `Map.set`: overwrite in place if the key exists, else append (JS `Map`
preserves first-insertion order). -/
def mapSet [DecidableEq T] (m : List (T × Nat)) (k : T) (v : Nat) : List (T × Nat) :=
  if mapHas m k then m.map (fun p => if p.1 = k then (k, v) else p) else m ++ [(k, v)]

/-- `Map.delete` (the removal part; the returned Bool is not used by the source). -/
def mapDelete [DecidableEq T] (m : List (T × Nat)) (k : T) : List (T × Nat) :=
  m.filter (fun p => decide (p.1 ≠ k))

/-! ### Heap primitives -/

/-- Overwrite the record stored at id `i`. -/
def hUpdate (h : Nat → RingNode T) (i : Nat) (nd : RingNode T) : Nat → RingNode T :=
  fun j => if j = i then nd else h j

/-- `i.next = n` (mutate one field of the object at `i`). -/
def setNext (h : Nat → RingNode T) (i n : Nat) : Nat → RingNode T :=
  hUpdate h i { h i with next := n }

/-- `i.prev = p`. -/
def setPrev (h : Nat → RingNode T) (i p : Nat) : Nat → RingNode T :=
  hUpdate h i { h i with prev := p }

/-- `private insertBefore(target, node)` — the four pointer assignments, in
source order:
`const prev = target.prev; node.next = target; node.prev = prev;
prev.next = node; target.prev = node;`. -/
def insertBefore (h : Nat → RingNode T) (target node : Nat) : Nat → RingNode T :=
  let prev := (h target).prev
  let h1 := setNext h node target
  let h2 := setPrev h1 node prev
  let h3 := setNext h2 prev node
  setPrev h3 target node

/-! ### The engine's operations, translated method by method -/

/-- Error kinds of the class (§7 of the spec): `"RotatableSet is empty"` and
`"Index must be a finite number"`. -/
inductive RSError where
  | emptyCollection
  | invalidOffset
deriving DecidableEq, Repr

instance {E A : Type} [DecidableEq E] [DecidableEq A] : DecidableEq (Except E A) :=
  fun a b =>
    match a, b with
    | .ok u, .ok v =>
      if h : u = v then isTrue (by rw [h]) else isFalse (fun he => h (Except.ok.inj he))
    | .error e, .error f =>
      if h : e = f then isTrue (by rw [h]) else isFalse (fun he => h (Except.error.inj he))
    | .ok _, .error _ => isFalse (fun he => Except.noConfusion he)
    | .error _, .ok _ => isFalse (fun he => Except.noConfusion he)

/-- A JS `number` argument as far as this code observes it: `NaN`, `±Infinity`
or a finite value (finite doubles are rationals, and `Number.isFinite`,
`Math.trunc` and `%` on them are exact). -/
inductive JSNumber where
  | nan
  | posInf
  | negInf
  | finite (q : ℚ)

/-- `Math.trunc`: round toward zero. -/
def jsTrunc (q : ℚ) : Int :=
  if 0 ≤ q then ⌊q⌋ else ⌈q⌉

/-- The empty state produced by `new RotatableSet()` before the constructor
loop runs. -/
def emptySet (T : Type) [Inhabited T] : RotatableSet T :=
  { heap := fun _ => ⟨default, 0, 0⟩
    current := none
    insertionHead := none
    nodes := []
    size := 0
    fresh := 0 }

/-- `addToFurthest(item)`.  The `some _, none` case is where
`requireInsertionHead()` would throw; no observable mutation has happened at
that point, so the state is returned unchanged. -/
def RotatableSet.addToFurthest [DecidableEq T] (s : RotatableSet T) (item : T) :
    RotatableSet T :=
  if mapHas s.nodes item then s
  else
    let nid := s.fresh
    let h0 := hUpdate s.heap nid ⟨item, nid, nid⟩
    match s.current, s.insertionHead with
    | none, _ =>
      { heap := h0
        current := some nid
        insertionHead := some nid
        nodes := mapSet s.nodes item nid
        size := s.size + 1
        fresh := nid + 1 }
    | some _, some ih =>
      { heap := insertBefore h0 ih nid
        current := s.current
        insertionHead := s.insertionHead
        nodes := mapSet s.nodes item nid
        size := s.size + 1
        fresh := nid + 1 }
    | some _, none => s

/-- `addToNext(item)`. -/
def RotatableSet.addToNext [DecidableEq T] (s : RotatableSet T) (item : T) :
    RotatableSet T :=
  if mapHas s.nodes item then s
  else
    let nid := s.fresh
    let h0 := hUpdate s.heap nid ⟨item, nid, nid⟩
    match s.current with
    | none =>
      { heap := h0
        current := some nid
        insertionHead := some nid
        nodes := mapSet s.nodes item nid
        size := s.size + 1
        fresh := nid + 1 }
    | some c =>
      { heap := insertBefore h0 c nid
        current := some nid
        insertionHead := s.insertionHead
        nodes := mapSet s.nodes item nid
        size := s.size + 1
        fresh := nid + 1 }

/-- `add(item)` — back-compat alias for `addToFurthest`. -/
def RotatableSet.add [DecidableEq T] (s : RotatableSet T) (item : T) : RotatableSet T :=
  s.addToFurthest item

/-- `delete(item)` — returns `(removed?, new state)`. -/
def RotatableSet.delete [DecidableEq T] (s : RotatableSet T) (item : T) :
    Bool × RotatableSet T :=
  match mapGet s.nodes item with
  | none => (false, s)
  | some n =>
    let nodes' := mapDelete s.nodes item
    if s.size = 1 then
      (true, { s with nodes := nodes', current := none, insertionHead := none, size := 0 })
    else
      let nxt := (s.heap n).next
      let h1 := setNext s.heap ((s.heap n).prev) ((s.heap n).next)
      let h2 := setPrev h1 ((h1 n).next) ((h1 n).prev)
      let cur' := if s.current = some n then some nxt else s.current
      let ih' := if s.insertionHead = some n then some nxt else s.insertionHead
      (true, { s with heap := h2, nodes := nodes', current := cur', insertionHead := ih',
                      size := s.size - 1 })

/-- The unlink step of `delete` in isolation: `node.prev.next = node.next;
node.next.prev = node.prev;` (same statements as in `delete`). -/
def spliceOut (h : Nat → RingNode T) (n : Nat) : Nat → RingNode T :=
  let h1 := setNext h ((h n).prev) ((h n).next)
  setPrev h1 ((h1 n).next) ((h1 n).prev)

/-- `next()` — returns the thrown error or the value, together with the state
after the call (unchanged when the call throws). -/
def RotatableSet.next (s : RotatableSet T) : Except RSError T × RotatableSet T :=
  match s.current with
  | none => (.error .emptyCollection, s)
  | some c =>
    let node := s.heap c
    (.ok node.value, { s with current := some node.next })

/-- `peek()` (never mutates). -/
def RotatableSet.peek (s : RotatableSet T) : Except RSError T :=
  match s.current with
  | none => .error .emptyCollection
  | some c => .ok (s.heap c).value

/-- Walk `prev` links `k` times (the backward loop of `getFurthestItem`). -/
def prevIter (h : Nat → RingNode T) (start : Nat) : Nat → Nat
  | 0 => start
  | k + 1 => prevIter h ((h start).prev) k

/-- `getFurthestItem(index = 0)`: `requireCurrent()` first, then the
finiteness check, `Math.trunc`, JS truncated-`%` normalisation
`((index % size) + size) % size`, and a backward walk from `cursor.prev`. -/
def RotatableSet.getFurthestItem (s : RotatableSet T) (index : JSNumber) :
    Except RSError T :=
  match s.current with
  | none => .error .emptyCollection
  | some c =>
    match index with
    | .finite q =>
      let i : Int := jsTrunc q
      let offset : Int := (i.tmod (s.size : Int) + (s.size : Int)).tmod (s.size : Int)
      .ok (s.heap (prevIter s.heap ((s.heap c).prev) offset.toNat)).value
    | _ => .error .invalidOffset

/-- `has(item)`. -/
def RotatableSet.has [DecidableEq T] (s : RotatableSet T) (item : T) : Bool :=
  mapHas s.nodes item

/-- `isEmpty`. -/
def RotatableSet.isEmpty (s : RotatableSet T) : Bool :=
  s.size == 0

/-- `clear()` — drops all references; the heap garbage is unreachable. -/
def RotatableSet.clear (s : RotatableSet T) : RotatableSet T :=
  { s with current := none, insertionHead := none, nodes := [], size := 0 }

/-- Collect `k` values following `next` links (the `toArray` loop body). -/
def collectValues (h : Nat → RingNode T) (start : Nat) : Nat → List T
  | 0 => []
  | k + 1 => (h start).value :: collectValues h ((h start).next) k

/-- `toArray()`. -/
def RotatableSet.toArray (s : RotatableSet T) : List T :=
  match s.current with
  | none => []
  | some c => collectValues s.heap c s.size

/-- `toSet()` — `new Set(this.nodes.keys())`, i.e. the keys in first-insertion
order. -/
def RotatableSet.toSet (s : RotatableSet T) : List T :=
  s.nodes.map Prod.fst

/-- The body of the `cycle()` generator, fully consumed: `k` iterations of
`yield this.next()`.  A thrown error escapes the generator, ending the
sequence. -/
def cycleAux : Nat → RotatableSet T → List T × RotatableSet T
  | 0, s => ([], s)
  | k + 1, s =>
    match s.next with
    | (.ok v, s') =>
      let r := cycleAux k s'
      (v :: r.1, r.2)
    | (.error _, s') => ([], s')

/-- `[...s.cycle()]`: one full pass of exactly `this._size` (read at entry)
iterations of `next()`. -/
def RotatableSet.cycle (s : RotatableSet T) : List T × RotatableSet T :=
  cycleAux s.size s

/-- `new RotatableSet(items)` — the constructor folds `addToFurthest` over the
initial items. -/
def ofItems [DecidableEq T] [Inhabited T] (items : List T) : RotatableSet T :=
  items.foldl RotatableSet.addToFurthest (emptySet T)

/-! ### Ring bookkeeping used by the invariants -/

/-- The ids visited by following `next` from `start`, `k` nodes long. -/
def idChain (h : Nat → RingNode T) (start : Nat) : Nat → List Nat
  | 0 => []
  | k + 1 => start :: idChain h ((h start).next) k

/-- Follow `next` links `k` times. -/
def nextIter (h : Nat → RingNode T) (start : Nat) : Nat → Nat
  | 0 => start
  | k + 1 => nextIter h ((h start).next) k

/-- `a` is directly followed by `b` with consistent back link. -/
def linked (h : Nat → RingNode T) (a b : Nat) : Prop :=
  (h a).next = b ∧ (h b).prev = a

/-- `l` lists a circular doubly-linked ring in order: consecutive elements are
`linked` and the last wraps to the head. -/
def isRingList (h : Nat → RingNode T) : List Nat → Prop
  | [] => False
  | x :: xs => List.Chain (linked h) x (xs ++ [x])

/-- The conditions tying a ring id list `ids` to the heap, membership map,
anchor and allocator bound. -/
def ringConds [DecidableEq T] (h : Nat → RingNode T) (nodes : List (T × Nat))
    (anc : Option Nat) (fr : Nat) (ids : List Nat) : Prop :=
  isRingList h ids ∧
  ids.Nodup ∧
  (∀ a, anc = some a → a ∈ ids) ∧
  (∀ i ∈ ids, i < fr) ∧
  nodes.Perm (ids.map (fun i => ((h i).value, i))) ∧
  (ids.map (fun i => (h i).value)).Nodup

/-- Well-formed state: the strengthened induction invariant.  It contains the
documented invariants of the data model (§3) plus the allocator bound needed
to know fresh nodes are really fresh. -/
def WF [DecidableEq T] (s : RotatableSet T) : Prop :=
  (s.current = none ↔ s.size = 0) ∧
  (s.insertionHead = none ↔ s.size = 0) ∧
  (s.current = none → s.nodes = []) ∧
  (∀ c, s.current = some c →
    ringConds s.heap s.nodes s.insertionHead s.fresh (idChain s.heap c s.size))

/-- The observable state invariants exactly as the data model documents them:
size agrees with the membership index and with the cursor-reachable ring, the
ring is circular (`node.next.prev == node`, `node.prev.next == node`), cursor
and anchor reference indexed nodes, and emptiness markers agree. -/
def Invariant [DecidableEq T] (s : RotatableSet T) : Prop :=
  s.nodes.length = s.size ∧
  (∀ c, s.current = some c →
    nextIter s.heap c s.size = c ∧
    (idChain s.heap c s.size).Nodup ∧
    (∀ i ∈ idChain s.heap c s.size,
      (s.heap ((s.heap i).next)).prev = i ∧ (s.heap ((s.heap i).prev)).next = i) ∧
    (∀ a, s.insertionHead = some a →
      ∃ p ∈ s.nodes, p.2 = a) ∧
    (∃ p ∈ s.nodes, p.2 = c)) ∧
  (s.current = none ↔ s.size = 0) ∧
  (s.insertionHead = none ↔ s.size = 0)

/-! ### Association-list map lemmas -/

theorem mapHas_iff [DecidableEq T] {m : List (T × Nat)} {k : T} :
    mapHas m k = true ↔ k ∈ m.map Prod.fst := by
  simp only [mapHas, List.any_eq_true, decide_eq_true_eq, List.mem_map]

theorem mapHas_false_iff [DecidableEq T] {m : List (T × Nat)} {k : T} :
    mapHas m k = false ↔ k ∉ m.map Prod.fst := by
  rw [← Bool.not_eq_true, not_iff_not]; exact mapHas_iff

theorem mapGet_eq_none [DecidableEq T] {m : List (T × Nat)} {k : T}
    (h : k ∉ m.map Prod.fst) : mapGet m k = none := by
  rw [mapGet, List.find?_eq_none.2, Option.map_none']
  rintro ⟨a, b⟩ hp hk
  exact h (List.mem_map.2 ⟨(a, b), hp, by simpa using hk⟩)

theorem mapGet_eq_some [DecidableEq T] {m : List (T × Nat)} {k : T} {v : Nat}
    (hnd : (m.map Prod.fst).Nodup) (hmem : (k, v) ∈ m) : mapGet m k = some v := by
  induction m with
  | nil => cases hmem
  | cons p m ih =>
    rw [List.map_cons, List.nodup_cons] at hnd
    rcases List.mem_cons.1 hmem with h | h
    · subst h; simp [mapGet]
    · have hpk : ¬(p.1 = k) := by
        intro he
        exact hnd.1 (he ▸ List.mem_map.2 ⟨(k, v), h, rfl⟩)
      have := ih hnd.2 h
      simp only [mapGet, List.find?_cons, decide_eq_true_eq] at this ⊢
      simp [hpk, this]

theorem mapSet_of_not_has [DecidableEq T] {m : List (T × Nat)} {k : T} {v : Nat}
    (h : mapHas m k = false) : mapSet m k v = m ++ [(k, v)] := by
  simp [mapSet, h]

theorem mapDelete_eq [DecidableEq T] {m : List (T × Nat)} {k : T} :
    mapDelete m k = m.filter (fun p => decide (p.1 ≠ k)) := rfl

/-! ### Heap update lemmas -/

@[simp] theorem hUpdate_same (h : Nat → RingNode T) (i : Nat) (nd : RingNode T) :
    hUpdate h i nd i = nd := by simp [hUpdate]

theorem hUpdate_other (h : Nat → RingNode T) {i j : Nat} (nd : RingNode T)
    (hij : j ≠ i) : hUpdate h i nd j = h j := by simp [hUpdate, hij]

theorem setNext_same (h : Nat → RingNode T) (i n : Nat) :
    setNext h i n i = { h i with next := n } := by simp [setNext]

theorem setNext_other (h : Nat → RingNode T) {i j : Nat} (n : Nat) (hij : j ≠ i) :
    setNext h i n j = h j := by simp [setNext, hUpdate, hij]

theorem setPrev_same (h : Nat → RingNode T) (i p : Nat) :
    setPrev h i p i = { h i with prev := p } := by simp [setPrev]

theorem setPrev_other (h : Nat → RingNode T) {i j : Nat} (p : Nat) (hij : j ≠ i) :
    setPrev h i p j = h j := by simp [setPrev, hUpdate, hij]

/-! ### Chain and idChain lemmas -/

theorem chain_append_left {R : Nat → Nat → Prop} :
    ∀ {l l' : List Nat} {x : Nat}, List.Chain R x (l ++ l') → List.Chain R x l
  | [], _, _, _ => List.Chain.nil
  | b :: l, l', x, h => by
    rw [List.cons_append, List.chain_cons] at h
    exact List.Chain.cons h.1 (chain_append_left h.2)

theorem chain_last_pair {R : Nat → Nat → Prop} :
    ∀ {l : List Nat} {x y : Nat}, List.Chain R x (l ++ [y]) →
      R ((x :: l).getLast (List.cons_ne_nil x l)) y
  | [], x, y, h => by
    rw [List.nil_append, List.chain_cons] at h
    simpa using h.1
  | z :: l, x, y, h => by
    rw [List.cons_append, List.chain_cons] at h
    have := chain_last_pair (l := l) (x := z) (y := y) h.2
    simpa [List.getLast_cons] using this

theorem chain_mem_left {R : Nat → Nat → Prop} :
    ∀ {l : List Nat} {x y a : Nat}, List.Chain R x (l ++ [y]) →
      a ∈ x :: l → ∃ b, R a b
  | [], x, y, a, h, ha => by
    rw [List.nil_append, List.chain_cons] at h
    rcases List.mem_singleton.1 ha with rfl
    exact ⟨y, h.1⟩
  | z :: l, x, y, a, h, ha => by
    rw [List.cons_append, List.chain_cons] at h
    rcases List.mem_cons.1 ha with rfl | ha
    · exact ⟨z, h.1⟩
    · exact chain_mem_left h.2 ha

theorem chain_mem_right {R : Nat → Nat → Prop} :
    ∀ {l : List Nat} {x y a : Nat}, List.Chain R x (l ++ [y]) →
      a ∈ l ++ [y] → ∃ b, R b a
  | [], x, y, a, h, ha => by
    rw [List.nil_append, List.chain_cons] at h
    rcases List.mem_singleton.1 ha with rfl
    exact ⟨x, h.1⟩
  | z :: l, x, y, a, h, ha => by
    rw [List.cons_append, List.chain_cons] at h
    rcases List.mem_cons.1 ha with rfl | ha
    · exact ⟨x, h.1⟩
    · exact chain_mem_right h.2 ha

/-- Frame rule sensitive to which fields a chain of `linked` reads: the `next`
field is read for the head and all but the last link target, the `prev` field
for all link targets. -/
theorem chain_linked_frame {h h' : Nat → RingNode T} :
    ∀ {l : List Nat} {x : Nat},
      (∀ i ∈ x :: l.dropLast, (h' i).next = (h i).next) →
      (∀ i ∈ l, (h' i).prev = (h i).prev) →
      List.Chain (linked h) x l → List.Chain (linked h') x l
  | [], _, _, _, _ => List.Chain.nil
  | [b], x, hn, hp, hch => by
    rw [List.chain_cons] at hch ⊢
    refine ⟨⟨?_, ?_⟩, List.Chain.nil⟩
    · rw [hn x (by simp), hch.1.1]
    · rw [hp b (by simp), hch.1.2]
  | b :: c :: l, x, hn, hp, hch => by
    rw [List.chain_cons] at hch ⊢
    refine ⟨⟨?_, ?_⟩, ?_⟩
    · rw [hn x (by simp), hch.1.1]
    · rw [hp b (by simp), hch.1.2]
    · exact chain_linked_frame
        (fun i hi => hn i (by
          simp only [List.dropLast_cons₂] at hi ⊢
          exact List.mem_cons_of_mem _ hi))
        (fun i hi => hp i (List.mem_cons_of_mem _ hi)) hch.2

@[simp] theorem idChain_length (h : Nat → RingNode T) (x : Nat) :
    ∀ k, (idChain h x k).length = k := by
  intro k
  induction k generalizing x with
  | zero => rfl
  | succ k ih => simp [idChain, ih]

theorem collectValues_eq_map (h : Nat → RingNode T) :
    ∀ (k : Nat) (x : Nat),
      collectValues h x k = (idChain h x k).map (fun i => (h i).value)
  | 0, _ => rfl
  | k + 1, x => by
    simp [collectValues, idChain, collectValues_eq_map h k]

theorem idChain_succ (h : Nat → RingNode T) (x k : Nat) :
    idChain h x (k + 1) = x :: idChain h ((h x).next) k := rfl

theorem nextIter_succ (h : Nat → RingNode T) (x k : Nat) :
    nextIter h x (k + 1) = nextIter h ((h x).next) k := rfl

theorem prevIter_succ (h : Nat → RingNode T) (x k : Nat) :
    prevIter h x (k + 1) = prevIter h ((h x).prev) k := rfl

theorem idChain_eq_of_chain {h : Nat → RingNode T} :
    ∀ {l : List Nat} {x : Nat}, List.Chain (fun a b => (h a).next = b) x l →
      idChain h x (l.length + 1) = x :: l
  | [], x, _ => rfl
  | b :: l, x, hch => by
    rw [List.chain_cons] at hch
    have ih := idChain_eq_of_chain (l := l) (x := b) hch.2
    rw [List.length_cons, idChain_succ, hch.1, ih]

theorem nextIter_eq_of_chain {h : Nat → RingNode T} :
    ∀ {l : List Nat} {x y : Nat}, List.Chain (fun a b => (h a).next = b) x (l ++ [y]) →
      nextIter h x (l.length + 1) = y
  | [], x, y, hch => by
    rw [List.nil_append, List.chain_cons] at hch
    rw [nextIter_succ, hch.1]; rfl
  | z :: l, x, y, hch => by
    rw [List.cons_append, List.chain_cons] at hch
    have ih := nextIter_eq_of_chain (l := l) (x := z) (y := y) hch.2
    rw [List.length_cons, nextIter_succ, hch.1, ih]

theorem chain_next_of_ring {h : Nat → RingNode T} {x : Nat} {xs : List Nat}
    (hr : isRingList h (x :: xs)) :
    List.Chain (fun a b => (h a).next = b) x (xs ++ [x]) :=
  List.Chain.imp (fun _ _ hab => hab.1) hr

theorem idChain_of_ring {h : Nat → RingNode T} {x : Nat} {xs : List Nat}
    (hr : isRingList h (x :: xs)) :
    idChain h x (xs.length + 1) = x :: xs :=
  idChain_eq_of_chain (chain_append_left (chain_next_of_ring hr))

theorem nextIter_of_ring {h : Nat → RingNode T} {x : Nat} {xs : List Nat}
    (hr : isRingList h (x :: xs)) :
    nextIter h x (xs.length + 1) = x :=
  nextIter_eq_of_chain (chain_next_of_ring hr)

/-! ### Ring rotation and local shape lemmas -/

theorem ring_rotate {h : Nat → RingNode T} :
    ∀ {l₁ l₂ : List Nat}, isRingList h (l₁ ++ l₂) → isRingList h (l₂ ++ l₁)
  | [], l₂, hr => by simpa using hr
  | a :: as, [], hr => by simpa using hr
  | a :: as, b :: bs, hr => by
    have h1 : List.Chain (linked h) a (as ++ b :: (bs ++ [a])) := by
      have : isRingList h (a :: (as ++ b :: bs)) := hr
      simp only [isRingList, List.append_assoc, List.cons_append] at this ⊢
      exact this
    rw [List.chain_split] at h1
    show List.Chain (linked h) b ((bs ++ a :: as) ++ [b])
    rw [List.append_assoc, List.cons_append, List.chain_split]
    exact ⟨h1.2, h1.1⟩

theorem ring_singleton {h : Nat → RingNode T} {x : Nat}
    (hr : isRingList h [x]) : (h x).next = x ∧ (h x).prev = x := by
  simp only [isRingList, List.nil_append, List.chain_cons] at hr
  exact hr.1

theorem ring_next_head {h : Nat → RingNode T} {x y : Nat} {xs : List Nat}
    (hr : isRingList h (x :: y :: xs)) : (h x).next = y ∧ (h y).prev = x := by
  simp only [isRingList, List.cons_append, List.chain_cons] at hr
  exact hr.1

theorem ring_prev_head {h : Nat → RingNode T} {x : Nat} {xs : List Nat}
    (hr : isRingList h (x :: xs)) :
    (h x).prev = (x :: xs).getLast (List.cons_ne_nil x xs) := by
  have := chain_last_pair (l := xs) (x := x) (y := x) hr
  exact this.2

theorem ring_backlinks {h : Nat → RingNode T} {l : List Nat}
    (hr : isRingList h l) :
    ∀ a ∈ l, (h ((h a).next)).prev = a ∧ (h ((h a).prev)).next = a := by
  rcases l with _ | ⟨x, xs⟩
  · exact fun a ha => absurd ha (List.not_mem_nil a)
  · intro a ha
    have hch : List.Chain (linked h) x (xs ++ [x]) := hr
    constructor
    · obtain ⟨b, hb⟩ := chain_mem_left hch ha
      rw [hb.1]; exact hb.2
    · have hmem : a ∈ xs ++ [x] := by
        rcases List.mem_cons.1 ha with rfl | hmem
        · exact List.mem_append_right xs (List.mem_singleton.2 rfl)
        · exact List.mem_append_left [x] hmem
      obtain ⟨b, hb⟩ := chain_mem_right hch hmem
      rw [hb.2]; exact hb.1

/-! ### Pointwise effect of the two heap surgeries -/

theorem setNext_value (h : Nat → RingNode T) (i n j : Nat) :
    (setNext h i n j).value = (h j).value := by
  by_cases hji : j = i
  · subst hji; simp [setNext]
  · rw [setNext_other h n hji]

theorem setPrev_value (h : Nat → RingNode T) (i p j : Nat) :
    (setPrev h i p j).value = (h j).value := by
  by_cases hji : j = i
  · subst hji; simp [setPrev]
  · rw [setPrev_other h p hji]

theorem spliceOut_value (h : Nat → RingNode T) (n j : Nat) :
    (spliceOut h n j).value = (h j).value := by
  simp only [spliceOut]
  rw [setPrev_value, setNext_value]

theorem insertBefore_value {h : Nat → RingNode T} {nu : Nat} {nd : RingNode T}
    (t : Nat) {j : Nat} (hj : j ≠ nu) :
    ((insertBefore (hUpdate h nu nd) t nu) j).value = (h j).value := by
  simp only [insertBefore]
  rw [setPrev_value, setNext_value, setPrev_value, setNext_value,
    hUpdate_other h nd hj]

theorem spliceOut_spec {h : Nat → RingNode T} {n : Nat}
    (hp : (h n).prev ≠ n) :
    (∀ j, j ≠ (h n).prev → j ≠ (h n).next → spliceOut h n j = h j) ∧
    ((h n).prev ≠ (h n).next →
      spliceOut h n ((h n).prev) = { h ((h n).prev) with next := (h n).next } ∧
      spliceOut h n ((h n).next) = { h ((h n).next) with prev := (h n).prev }) ∧
    ((h n).prev = (h n).next →
      spliceOut h n ((h n).next) =
        { h ((h n).next) with next := (h n).next, prev := (h n).prev }) := by
  have hnp : n ≠ (h n).prev := Ne.symm hp
  have h1n : setNext h ((h n).prev) ((h n).next) n = h n :=
    setNext_other h ((h n).next) hnp
  refine ⟨?_, ?_, ?_⟩
  · intro j hjp hjn
    simp only [spliceOut, h1n]
    rw [setPrev_other _ _ hjn, setNext_other _ _ hjp]
  · intro hpn
    constructor
    · simp only [spliceOut, h1n]
      rw [setPrev_other _ _ hpn, setNext_same]
    · simp only [spliceOut, h1n]
      rw [setPrev_same, setNext_other _ _ (Ne.symm hpn)]
  · intro hpn
    simp only [spliceOut, h1n]
    rw [setPrev_same, ← hpn, setNext_same, hpn]

theorem insertBefore_fresh_spec {h : Nat → RingNode T} {t nu : Nat} {x : T}
    (hta : t ≠ nu) (hpa : (h t).prev ≠ nu) :
    (insertBefore (hUpdate h nu ⟨x, nu, nu⟩) t nu) nu = ⟨x, t, (h t).prev⟩ ∧
    (∀ j, j ≠ nu → j ≠ t → j ≠ (h t).prev →
      (insertBefore (hUpdate h nu ⟨x, nu, nu⟩) t nu) j = h j) ∧
    ((h t).prev ≠ t →
      (insertBefore (hUpdate h nu ⟨x, nu, nu⟩) t nu) ((h t).prev) =
        { h ((h t).prev) with next := nu } ∧
      (insertBefore (hUpdate h nu ⟨x, nu, nu⟩) t nu) t = { h t with prev := nu }) ∧
    ((h t).prev = t →
      (insertBefore (hUpdate h nu ⟨x, nu, nu⟩) t nu) t =
        { h t with next := nu, prev := nu }) := by
  have h0t : hUpdate h nu (⟨x, nu, nu⟩ : RingNode T) t = h t := hUpdate_other h _ hta
  have h0p : hUpdate h nu (⟨x, nu, nu⟩ : RingNode T) ((h t).prev) = h ((h t).prev) :=
    hUpdate_other h _ hpa
  refine ⟨?_, ?_, ?_, ?_⟩
  · simp only [insertBefore, h0t]
    rw [setPrev_other _ _ (Ne.symm hta), setNext_other _ _ (Ne.symm hpa),
      setPrev_same, setNext_same, hUpdate_same]
  · intro j hjn hjt hjp
    simp only [insertBefore, h0t]
    rw [setPrev_other _ _ hjt, setNext_other _ _ hjp, setPrev_other _ _ hjn,
      setNext_other _ _ hjn, hUpdate_other h _ hjn]
  · intro hpt
    constructor
    · simp only [insertBefore, h0t]
      rw [setPrev_other _ _ hpt, setNext_same, setPrev_other _ _ hpa,
        setNext_other _ _ hpa, h0p]
    · simp only [insertBefore, h0t]
      rw [setPrev_same, setNext_other _ _ (Ne.symm hpt), setPrev_other _ _ hta,
        setNext_other _ _ hta, h0t]
  · intro hpt
    simp only [insertBefore, h0t]
    rw [setPrev_same, hpt, setNext_same, setPrev_other _ _ hta,
      setNext_other _ _ hta, h0t]

/-! ### Ring surgery: inserting a fresh node before a ring member -/

theorem ring_insert_head {h : Nat → RingNode T} {t : Nat} {M : List Nat} {nu : Nat} {x : T}
    (hr : isRingList h (t :: M)) (hnd : (t :: M).Nodup) (hnu : nu ∉ t :: M) :
    isRingList (insertBefore (hUpdate h nu ⟨x, nu, nu⟩) t nu) (nu :: t :: M) := by
  have hta : t ≠ nu := fun he => hnu (he ▸ List.mem_cons_self t M)
  have hprev : (h t).prev = (t :: M).getLast (List.cons_ne_nil t M) := ring_prev_head hr
  have hpmem : (h t).prev ∈ t :: M := by rw [hprev]; exact List.getLast_mem _
  have hpa : (h t).prev ≠ nu := fun he => hnu (he ▸ hpmem)
  obtain ⟨hnu_spec, hframe, hsplit, hsingle⟩ :=
    insertBefore_fresh_spec (h := h) (x := x) hta hpa
  rcases List.eq_nil_or_concat M with rfl | ⟨M', g, rfl⟩
  · have hpt : (h t).prev = t := by simpa using hprev
    have hIt := hsingle hpt
    simp only [isRingList, List.cons_append, List.nil_append]
    refine List.Chain.cons ⟨?_, ?_⟩ (List.Chain.cons ⟨?_, ?_⟩ List.Chain.nil)
    · rw [hnu_spec]
    · rw [hIt]
    · rw [hIt]
    · rw [hnu_spec]; exact hpt
  · simp only [List.concat_eq_append] at hr hnd hnu hprev hpmem ⊢
    have hg : (h t).prev = g := by
      rw [hprev]
      exact List.getLast_concat (t :: M')
    have htM : t ∉ M' ++ [g] := (List.nodup_cons.1 hnd).1
    have hndM : (M' ++ [g]).Nodup := (List.nodup_cons.1 hnd).2
    have hgM' : g ∉ M' := fun hgmem =>
      (List.nodup_append.1 hndM).2.2 hgmem (List.mem_singleton.2 rfl)
    have hgt : g ≠ t := by
      intro he; apply htM; rw [← he]
      exact List.mem_append_right M' (List.mem_singleton.2 rfl)
    have hpt : (h t).prev ≠ t := by rw [hg]; exact hgt
    obtain ⟨hIp, hIt⟩ := hsplit hpt
    rw [hg] at hnu_spec hframe hIp
    simp only [isRingList, List.cons_append]
    refine List.Chain.cons ⟨?_, ?_⟩ ?_
    · rw [hnu_spec]
    · rw [hIt]
    · rw [List.append_assoc]
      rw [show [g] ++ [nu] = g :: [nu] from rfl, List.chain_split]
      constructor
      · have base : List.Chain (linked h) t (M' ++ [g]) :=
          @chain_append_left _ (M' ++ [g]) [t] _ hr
        refine chain_linked_frame ?_ ?_ base
        · intro i hi
          rw [List.dropLast_concat] at hi
          rcases List.mem_cons.1 hi with rfl | hi'
          · rw [hIt]
          · have hiM : i ∈ t :: (M' ++ [g]) :=
              List.mem_cons_of_mem t (List.mem_append_left [g] hi')
            have h1 : i ≠ nu := fun he => hnu (he ▸ hiM)
            have h2 : i ≠ t := fun he => htM (he ▸ List.mem_append_left [g] hi')
            have h3 : i ≠ g := fun he => hgM' (he ▸ hi')
            rw [hframe i h1 h2 h3]
        · intro i hi
          by_cases hig : i = g
          · subst hig; rw [hIp]
          · have hiM : i ∈ t :: (M' ++ [g]) := List.mem_cons_of_mem t hi
            have h1 : i ≠ nu := fun he => hnu (he ▸ hiM)
            have h2 : i ≠ t := fun he => htM (he ▸ hi)
            rw [hframe i h1 h2 hig]
      · refine List.Chain.cons ⟨?_, ?_⟩ List.Chain.nil
        · rw [hIp]
        · rw [hnu_spec]

theorem ring_insert {h : Nat → RingNode T} {L1 L2 : List Nat} {t nu : Nat} {x : T}
    (hr : isRingList h (L1 ++ t :: L2)) (hnd : (L1 ++ t :: L2).Nodup)
    (hnu : nu ∉ L1 ++ t :: L2) :
    isRingList (insertBefore (hUpdate h nu ⟨x, nu, nu⟩) t nu) (L1 ++ nu :: t :: L2) := by
  have hperm : (L1 ++ t :: L2).Perm ((t :: L2) ++ L1) := List.perm_append_comm
  have hhead : isRingList (insertBefore (hUpdate h nu ⟨x, nu, nu⟩) t nu)
      ((nu :: t :: L2) ++ L1) := by
    exact ring_insert_head (M := L2 ++ L1) (ring_rotate hr)
      (hperm.nodup_iff.1 hnd) (fun hmem => hnu (hperm.mem_iff.2 hmem))
  exact @ring_rotate T _ (nu :: t :: L2) L1 hhead

/-! ### Ring surgery: splicing a node out -/

theorem ring_erase_head {h : Nat → RingNode T} {n m : Nat} {M : List Nat}
    (hr : isRingList h (n :: m :: M)) (hnd : (n :: m :: M).Nodup) :
    isRingList (spliceOut h n) (m :: M) := by
  have hnm : (h n).next = m := (ring_next_head hr).1
  have hprev : (h n).prev = (n :: m :: M).getLast (List.cons_ne_nil _ _) := ring_prev_head hr
  have hpmem : (h n).prev ∈ m :: M := by
    rw [hprev]
    exact List.getLast_mem (List.cons_ne_nil m M)
  have hpn : (h n).prev ≠ n := fun he => (List.nodup_cons.1 hnd).1 (he ▸ hpmem)
  obtain ⟨hframe, hsplit, hdouble⟩ := spliceOut_spec hpn
  have hnM : n ∉ m :: M := (List.nodup_cons.1 hnd).1
  rcases List.eq_nil_or_concat M with rfl | ⟨M'', g, rfl⟩
  · have hpm : (h n).prev = m := by simpa using hprev
    have heq : (h n).prev = (h n).next := by rw [hpm, hnm]
    have h2m := hdouble heq
    rw [hnm] at h2m
    simp only [isRingList, List.nil_append]
    refine List.Chain.cons ⟨?_, ?_⟩ List.Chain.nil
    · rw [h2m]
    · rw [h2m]; exact hpm
  · simp only [List.concat_eq_append] at hr hnd hprev hpmem hnM ⊢
    have hpg : (h n).prev = g := by
      rw [hprev]
      exact List.getLast_concat (n :: m :: M'')
    have hmM : m ∉ M'' ++ [g] := (List.nodup_cons.1 (List.nodup_cons.1 hnd).2).1
    have hndM : (M'' ++ [g]).Nodup := (List.nodup_cons.1 (List.nodup_cons.1 hnd).2).2
    have hgM'' : g ∉ M'' := fun hgmem =>
      (List.nodup_append.1 hndM).2.2 hgmem (List.mem_singleton.2 rfl)
    have hgm : g ≠ m := by
      intro he; apply hmM; rw [← he]
      exact List.mem_append_right M'' (List.mem_singleton.2 rfl)
    have hpneq : (h n).prev ≠ (h n).next := by rw [hpg, hnm]; exact hgm
    obtain ⟨h2g, h2m⟩ := hsplit hpneq
    rw [hpg, hnm] at h2g h2m hframe
    simp only [isRingList, List.cons_append]
    rw [List.append_assoc]
    rw [show [g] ++ [m] = g :: [m] from rfl, List.chain_split]
    constructor
    · have base : List.Chain (linked h) m (M'' ++ [g]) := by
        have hr' : List.Chain (linked h) m ((M'' ++ [g]) ++ [n]) := by
          have : List.Chain (linked h) n ((m :: (M'' ++ [g])) ++ [n]) := hr
          rw [List.cons_append, List.chain_cons] at this
          exact this.2
        exact chain_append_left hr'
      refine chain_linked_frame ?_ ?_ base
      · intro i hi
        rw [List.dropLast_concat] at hi
        rcases List.mem_cons.1 hi with rfl | hi'
        · rw [h2m]
        · have h2 : i ≠ g := fun he => hgM'' (he ▸ hi')
          have h3 : i ≠ m := fun he => hmM (he ▸ List.mem_append_left [g] hi')
          rw [hframe i h2 h3]
      · intro i hi
        by_cases hig : i = g
        · subst hig; rw [h2g]
        · have h3 : i ≠ m := fun he => hmM (he ▸ hi)
          rw [hframe i hig h3]
    · refine List.Chain.cons ⟨?_, ?_⟩ List.Chain.nil
      · rw [h2g]
      · rw [h2m]

theorem ring_erase {h : Nat → RingNode T} {L1 L2 : List Nat} {n : Nat}
    (hr : isRingList h (L1 ++ n :: L2)) (hnd : (L1 ++ n :: L2).Nodup)
    (hne : L2 ++ L1 ≠ []) :
    isRingList (spliceOut h n) (L1 ++ L2) := by
  obtain ⟨m, M, hM⟩ : ∃ m M, L2 ++ L1 = m :: M := by
    rcases hL : L2 ++ L1 with _ | ⟨m, M⟩
    · exact absurd hL hne
    · exact ⟨m, M, rfl⟩
  have hr' : isRingList h (n :: m :: M) := by
    have := @ring_rotate T _ L1 (n :: L2) hr
    rw [show (n :: L2) ++ L1 = n :: (L2 ++ L1) from rfl, hM] at this
    exact this
  have hperm : (L1 ++ n :: L2).Perm (n :: m :: M) := by
    rw [← hM]
    exact List.perm_middle.trans ((List.perm_append_comm).cons n)
  have hnd' : (n :: m :: M).Nodup := hperm.nodup_iff.1 hnd
  have herased : isRingList (spliceOut h n) (L2 ++ L1) := by
    rw [hM]; exact ring_erase_head hr' hnd'
  exact @ring_rotate T _ L2 L1 herased

/-! ### Rotating a ring list to a chosen head, transfer of `ringConds` -/

theorem ring_head_rotation {h : Nat → RingNode T} {l : List Nat} {d : Nat}
    (hr : isRingList h l) (hd : d ∈ l) :
    ∃ rest, isRingList h (d :: rest) ∧ (d :: rest).Perm l := by
  obtain ⟨P, Q, rfl⟩ := List.append_of_mem hd
  refine ⟨Q ++ P, @ring_rotate T _ P (d :: Q) hr, ?_⟩
  exact ((List.perm_append_comm).cons d).trans List.perm_middle.symm

theorem idChain_of_ring_length {h : Nat → RingNode T} {d : Nat} {rest : List Nat}
    {k : Nat} (hr : isRingList h (d :: rest)) (hk : k = rest.length + 1) :
    idChain h d k = d :: rest := by
  subst hk; exact idChain_of_ring hr

theorem ringConds_perm [DecidableEq T] {h : Nat → RingNode T} {nodes : List (T × Nat)}
    {anc : Option Nat} {fr : Nat} {ids nl : List Nat}
    (hperm : nl.Perm ids) (hr : isRingList h nl)
    (hc : ringConds h nodes anc fr ids) : ringConds h nodes anc fr nl := by
  obtain ⟨_, hnd, hanc, hb, hp, hvn⟩ := hc
  exact ⟨hr, hperm.nodup_iff.2 hnd, fun a ha => hperm.mem_iff.2 (hanc a ha),
    fun i hi => hb i (hperm.subset hi), hp.trans (hperm.map _).symm,
    (hperm.map _).nodup_iff.2 hvn⟩

/-! ### Invariant preservation -/

theorem ring_mem_next_prev {h : Nat → RingNode T} {l : List Nat} {t : Nat}
    (hr : isRingList h l) (ht : t ∈ l) : (h t).next ∈ l ∧ (h t).prev ∈ l := by
  obtain ⟨rest, hrt, hperm⟩ := ring_head_rotation hr ht
  constructor
  · rcases rest with _ | ⟨m, rest'⟩
    · rw [(ring_singleton hrt).1]; exact ht
    · rw [(ring_next_head hrt).1]
      exact hperm.subset (List.mem_cons_of_mem t (List.mem_cons_self m rest'))
  · rw [ring_prev_head hrt]
    exact hperm.subset (List.getLast_mem _)

theorem nodes_fst_perm {nodes : List (T × Nat)} {h : Nat → RingNode T} {ids : List Nat}
    (hp : nodes.Perm (ids.map fun i => ((h i).value, i))) :
    (nodes.map Prod.fst).Perm (ids.map fun i => (h i).value) := by
  have hmap := hp.map Prod.fst
  rwa [List.map_map] at hmap

theorem idChain_head_mem (h : Nat → RingNode T) (c : Nat) {k : Nat} (hk : 0 < k) :
    c ∈ idChain h c k := by
  obtain ⟨k', rfl⟩ : ∃ k', k = k' + 1 := ⟨k - 1, (Nat.succ_pred_eq_of_pos hk).symm⟩
  exact List.mem_cons_self c _

/-- Core lemma for both insertion operations: inserting a fresh node `nu`
holding `x` before a ring member `t` re-establishes all ring conditions, for
any choice `cc` of new cursor inside the enlarged ring and any anchor `anc'`
referencing the enlarged ring. -/
theorem ringConds_insert [DecidableEq T] {h : Nat → RingNode T} {nodes : List (T × Nat)}
    {ids : List Nat} {t nu : Nat} {x : T} (cc : Nat) (anc' : Option Nat)
    (hr0 : isRingList h ids) (hnd0 : ids.Nodup)
    (hb0 : ∀ i ∈ ids, i < nu)
    (hp0 : nodes.Perm (ids.map fun i => ((h i).value, i)))
    (hvn0 : (ids.map fun i => (h i).value).Nodup)
    (hx : x ∉ nodes.map Prod.fst)
    (ht : t ∈ ids) (hcc : cc ∈ nu :: ids)
    (hanc' : ∀ a, anc' = some a → a ∈ nu :: ids) :
    ringConds (insertBefore (hUpdate h nu ⟨x, nu, nu⟩) t nu)
      (nodes ++ [(x, nu)]) anc' (nu + 1)
      (idChain (insertBefore (hUpdate h nu ⟨x, nu, nu⟩) t nu) cc (ids.length + 1)) := by
  have hnumem : nu ∉ ids := fun hmem => absurd (hb0 nu hmem) (lt_irrefl nu)
  obtain ⟨L1, L2, hdec⟩ := List.append_of_mem ht
  have hrI : isRingList (insertBefore (hUpdate h nu ⟨x, nu, nu⟩) t nu)
      (L1 ++ nu :: t :: L2) := by
    refine ring_insert ?_ ?_ ?_
    · rw [← hdec]; exact hr0
    · rw [← hdec]; exact hnd0
    · rw [← hdec]; exact hnumem
  have hpermI : (L1 ++ nu :: t :: L2).Perm (nu :: ids) := by
    have hmid : (L1 ++ nu :: (t :: L2)).Perm (nu :: (L1 ++ t :: L2)) := List.perm_middle
    rwa [← hdec] at hmid
  have hccI : cc ∈ L1 ++ nu :: t :: L2 := hpermI.mem_iff.2 hcc
  obtain ⟨rest, hrrot, hpermrot⟩ := ring_head_rotation hrI hccI
  have hpermAll : (cc :: rest).Perm (nu :: ids) := hpermrot.trans hpermI
  have hlen : ids.length + 1 = rest.length + 1 := by
    have h1 := hpermAll.length_eq
    simp only [List.length_cons] at h1
    omega
  rw [idChain_of_ring_length hrrot hlen]
  have hvalue : ∀ i ∈ ids, ((insertBefore (hUpdate h nu ⟨x, nu, nu⟩) t nu) i).value
      = (h i).value :=
    fun i hi => insertBefore_value t (fun he => hnumem (he ▸ hi))
  have hvnu : ((insertBefore (hUpdate h nu ⟨x, nu, nu⟩) t nu) nu).value = x := by
    have hta : t ≠ nu := fun he => hnumem (he ▸ ht)
    have hpa : (h t).prev ≠ nu := fun he => hnumem (he ▸ (ring_mem_next_prev hr0 ht).2)
    rw [(insertBefore_fresh_spec (h := h) (x := x) hta hpa).1]
  refine ⟨hrrot, ?_, ?_, ?_, ?_, ?_⟩
  · exact hpermAll.nodup_iff.2 (List.nodup_cons.2 ⟨hnumem, hnd0⟩)
  · intro a ha
    exact hpermAll.mem_iff.2 (hanc' a ha)
  · intro i hi
    rcases List.mem_cons.1 (hpermAll.subset hi) with rfl | hi'
    · exact Nat.lt_succ_self _
    · exact Nat.lt_succ_of_lt (hb0 i hi')
  · have hmapeq : ids.map
        (fun i => (((insertBefore (hUpdate h nu ⟨x, nu, nu⟩) t nu) i).value, i)) =
        ids.map (fun i => ((h i).value, i)) :=
      List.map_congr_left (fun i hi => by rw [hvalue i hi])
    have h1 : (nodes ++ [(x, nu)]).Perm ((x, nu) :: nodes) :=
      List.perm_append_singleton _ _
    have h2 : ((x, nu) :: nodes).Perm
        ((x, nu) :: ids.map (fun i => ((h i).value, i))) := hp0.cons _
    have h3 := hpermAll.map
      (fun i => (((insertBefore (hUpdate h nu ⟨x, nu, nu⟩) t nu) i).value, i))
    have h4 : (nu :: ids).map
        (fun i => (((insertBefore (hUpdate h nu ⟨x, nu, nu⟩) t nu) i).value, i)) =
        (x, nu) :: ids.map (fun i => ((h i).value, i)) := by
      rw [List.map_cons, hvnu, hmapeq]
    rw [h4] at h3
    exact (h1.trans h2).trans h3.symm
  · have hx_not : x ∉ ids.map (fun i => (h i).value) := by
      intro hmem
      exact hx ((nodes_fst_perm hp0).mem_iff.2 hmem)
    have hval_eq : (nu :: ids).map
        (fun i => ((insertBefore (hUpdate h nu ⟨x, nu, nu⟩) t nu) i).value) =
        x :: ids.map (fun i => (h i).value) := by
      rw [List.map_cons, hvnu]
      exact congrArg (x :: ·) (List.map_congr_left (fun i hi => hvalue i hi))
    have h5 := hpermAll.map
      (fun i => ((insertBefore (hUpdate h nu ⟨x, nu, nu⟩) t nu) i).value)
    rw [hval_eq] at h5
    exact h5.nodup_iff.2 (List.nodup_cons.2 ⟨hx_not, hvn0⟩)

theorem size_pos_of_current [DecidableEq T] {s : RotatableSet T} (hwf : WF s)
    {c : Nat} (hc : s.current = some c) : 0 < s.size := by
  rcases Nat.eq_zero_or_pos s.size with h0 | hpos
  · rw [hwf.1.2 h0] at hc; cases hc
  · exact hpos

theorem WF_emptySet [DecidableEq T] [Inhabited T] : WF (emptySet T) := by
  refine ⟨by simp [emptySet], by simp [emptySet], by simp [emptySet], ?_⟩
  intro c hc
  simp [emptySet] at hc

theorem WF_clear [DecidableEq T] (s : RotatableSet T) : WF s.clear := by
  refine ⟨by simp [RotatableSet.clear], by simp [RotatableSet.clear],
    by simp [RotatableSet.clear], ?_⟩
  intro c hc
  simp [RotatableSet.clear] at hc

theorem WF_next [DecidableEq T] {s : RotatableSet T} (hwf : WF s) : WF (s.next).2 := by
  cases hc : s.current with
  | none =>
    have he : (s.next).2 = s := by simp [RotatableSet.next, hc]
    rw [he]; exact hwf
  | some c =>
    have hpos : 0 < s.size := size_pos_of_current hwf hc
    obtain ⟨k, hk⟩ : ∃ k, s.size = k + 1 :=
      ⟨s.size - 1, (Nat.succ_pred_eq_of_pos hpos).symm⟩
    obtain ⟨hcur0, hanc0, hnodes0, hring⟩ := hwf
    have hnext : (s.next).2 = { s with current := some ((s.heap c).next) } := by
      simp [RotatableSet.next, hc]
    rw [hnext]
    refine ⟨by simp [hk], by simpa using hanc0, by simp, ?_⟩
    intro c₂ hc₂
    simp only [Option.some_inj] at hc₂
    have hrc := hring c hc
    have hids : idChain s.heap c s.size = c :: idChain s.heap ((s.heap c).next) k := by
      rw [hk]; rfl
    have hr : isRingList s.heap (c :: idChain s.heap ((s.heap c).next) k) := by
      rw [← hids]; exact hrc.1
    have hrot : isRingList s.heap (idChain s.heap ((s.heap c).next) k ++ [c]) :=
      @ring_rotate T _ [c] (idChain s.heap ((s.heap c).next) k) hr
    have hperm0 : (idChain s.heap ((s.heap c).next) k ++ [c]).Perm
        (idChain s.heap c s.size) := by
      rw [hids]; exact List.perm_append_singleton c _
    have hgoal : idChain s.heap c₂ s.size =
        idChain s.heap ((s.heap c).next) k ++ [c] := by
      rcases hkc : idChain s.heap ((s.heap c).next) k with _ | ⟨m, tl'⟩
      · have hk0 : k = 0 := by
          have hlen := idChain_length s.heap ((s.heap c).next) k
          rw [hkc] at hlen; simpa using hlen.symm
        have hsing : isRingList s.heap [c] := by rw [hkc] at hr; exact hr
        have hcc : (s.heap c).next = c := (ring_singleton hsing).1
        rw [← hc₂, hcc, hk, hk0]
        rfl
      · rw [hkc] at hr hrot
        have hm : (s.heap c).next = m := (ring_next_head hr).1
        have hlenk : tl'.length + 1 = k := by
          have hlen := idChain_length s.heap ((s.heap c).next) k
          rw [hkc] at hlen; simpa using hlen
        rw [← hc₂, hm]
        show idChain s.heap m s.size = m :: (tl' ++ [c])
        refine idChain_of_ring_length ?_ ?_
        · exact hrot
        · simp only [List.length_append, List.length_cons, List.length_nil]; omega
    rw [hgoal]
    exact ringConds_perm hperm0 hrot hrc

theorem WF_addToFurthest [DecidableEq T] {s : RotatableSet T} (hwf : WF s) (x : T) :
    WF (s.addToFurthest x) := by
  by_cases hhas : mapHas s.nodes x = true
  · have he : s.addToFurthest x = s := by simp [RotatableSet.addToFurthest, hhas]
    rw [he]; exact hwf
  have hhas' : mapHas s.nodes x = false := by simpa using hhas
  cases hc : s.current with
  | none =>
    have hsz : s.size = 0 := hwf.1.1 hc
    have hnil : s.nodes = [] := hwf.2.2.1 hc
    have he : s.addToFurthest x =
        { heap := hUpdate s.heap s.fresh ⟨x, s.fresh, s.fresh⟩,
          current := some s.fresh, insertionHead := some s.fresh,
          nodes := [(x, s.fresh)], size := 1, fresh := s.fresh + 1 } := by
      simp [RotatableSet.addToFurthest, hhas', hc, hnil, hsz, mapSet, mapHas]
    rw [he]
    refine ⟨by simp, by simp, by simp, ?_⟩
    intro c' hc'
    simp only [Option.some_inj] at hc'
    subst hc'
    have hchain : idChain (hUpdate s.heap s.fresh ⟨x, s.fresh, s.fresh⟩) s.fresh 1 =
        [s.fresh] := rfl
    rw [show (1 : Nat) = 0 + 1 from rfl] at hchain
    rw [hchain]
    refine ⟨?_, by simp, ?_, ?_, ?_, by simp⟩
    · simp only [isRingList, List.nil_append]
      refine List.Chain.cons ⟨?_, ?_⟩ List.Chain.nil
      · rw [hUpdate_same]
      · rw [hUpdate_same]
    · intro a ha
      simp only [Option.some_inj] at ha
      subst ha
      exact List.mem_singleton.2 rfl
    · intro i hi
      rcases List.mem_singleton.1 hi with rfl
      exact Nat.lt_succ_self _
    · simp
  | some c =>
    cases ha : s.insertionHead with
    | none =>
      exfalso
      have hsz : s.size = 0 := hwf.2.1.1 ha
      rw [hwf.1.2 hsz] at hc; cases hc
    | some a =>
      have hpos : 0 < s.size := size_pos_of_current hwf hc
      have he : s.addToFurthest x =
          { heap := insertBefore (hUpdate s.heap s.fresh ⟨x, s.fresh, s.fresh⟩) a s.fresh,
            current := some c, insertionHead := some a,
            nodes := s.nodes ++ [(x, s.fresh)], size := s.size + 1,
            fresh := s.fresh + 1 } := by
        simp [RotatableSet.addToFurthest, hhas', hc, ha, mapSet_of_not_has hhas']
      rw [he]
      obtain ⟨hr0, hnd0, hanc0, hb0, hp0, hvn0⟩ := hwf.2.2.2 c hc
      refine ⟨by simp, by simp, by simp, ?_⟩
      intro c' hc'
      simp only [Option.some_inj] at hc'
      subst hc'
      have hcore := ringConds_insert c (some a)
        hr0 hnd0 hb0 hp0 hvn0 (mapHas_false_iff.1 hhas') (hanc0 a ha)
        (List.mem_cons_of_mem _ (idChain_head_mem s.heap c hpos))
        (fun a' ha' => by
          simp only [Option.some_inj] at ha'
          subst ha'
          exact List.mem_cons_of_mem _ (hanc0 a ha))
      rw [idChain_length] at hcore
      exact hcore

theorem WF_addToNext [DecidableEq T] {s : RotatableSet T} (hwf : WF s) (x : T) :
    WF (s.addToNext x) := by
  by_cases hhas : mapHas s.nodes x = true
  · have he : s.addToNext x = s := by simp [RotatableSet.addToNext, hhas]
    rw [he]; exact hwf
  have hhas' : mapHas s.nodes x = false := by simpa using hhas
  cases hc : s.current with
  | none =>
    have hsz : s.size = 0 := hwf.1.1 hc
    have hnil : s.nodes = [] := hwf.2.2.1 hc
    have he : s.addToNext x =
        { heap := hUpdate s.heap s.fresh ⟨x, s.fresh, s.fresh⟩,
          current := some s.fresh, insertionHead := some s.fresh,
          nodes := [(x, s.fresh)], size := 1, fresh := s.fresh + 1 } := by
      simp [RotatableSet.addToNext, hhas', hc, hnil, hsz, mapSet, mapHas]
    rw [he]
    refine ⟨by simp, by simp, by simp, ?_⟩
    intro c' hc'
    simp only [Option.some_inj] at hc'
    subst hc'
    have hchain : idChain (hUpdate s.heap s.fresh ⟨x, s.fresh, s.fresh⟩) s.fresh 1 =
        [s.fresh] := rfl
    rw [show (1 : Nat) = 0 + 1 from rfl] at hchain
    rw [hchain]
    refine ⟨?_, by simp, ?_, ?_, ?_, by simp⟩
    · simp only [isRingList, List.nil_append]
      refine List.Chain.cons ⟨?_, ?_⟩ List.Chain.nil
      · rw [hUpdate_same]
      · rw [hUpdate_same]
    · intro a ha
      simp only [Option.some_inj] at ha
      subst ha
      exact List.mem_singleton.2 rfl
    · intro i hi
      rcases List.mem_singleton.1 hi with rfl
      exact Nat.lt_succ_self _
    · simp
  | some c =>
    cases ha : s.insertionHead with
    | none =>
      exfalso
      have hsz : s.size = 0 := hwf.2.1.1 ha
      rw [hwf.1.2 hsz] at hc; cases hc
    | some a =>
      have hpos : 0 < s.size := size_pos_of_current hwf hc
      have he : s.addToNext x =
          { heap := insertBefore (hUpdate s.heap s.fresh ⟨x, s.fresh, s.fresh⟩) c s.fresh,
            current := some s.fresh, insertionHead := some a,
            nodes := s.nodes ++ [(x, s.fresh)], size := s.size + 1,
            fresh := s.fresh + 1 } := by
        simp [RotatableSet.addToNext, hhas', hc, ha, mapSet_of_not_has hhas']
      rw [he]
      obtain ⟨hr0, hnd0, hanc0, hb0, hp0, hvn0⟩ := hwf.2.2.2 c hc
      refine ⟨by simp, by simp, by simp, ?_⟩
      intro c' hc'
      simp only [Option.some_inj] at hc'
      subst hc'
      have hcore := ringConds_insert s.fresh (some a)
        hr0 hnd0 hb0 hp0 hvn0 (mapHas_false_iff.1 hhas')
        (idChain_head_mem s.heap c hpos)
        (List.mem_cons_self _ _)
        (fun a' ha' => by
          simp only [Option.some_inj] at ha'
          subst ha'
          exact List.mem_cons_of_mem _ (hanc0 a ha))
      rw [idChain_length] at hcore
      exact hcore

theorem mem_of_mem_middle {l₁ l₂ : List Nat} {n i : Nat}
    (hi : i ∈ l₁ ++ n :: l₂) (hne : i ≠ n) : i ∈ l₁ ++ l₂ := by
  rcases List.mem_append.1 hi with h1 | h2
  · exact List.mem_append_left _ h1
  · rcases List.mem_cons.1 h2 with rfl | h3
    · exact absurd rfl hne
    · exact List.mem_append_right _ h3

theorem ring_next_ne {h : Nat → RingNode T} {l : List Nat} {n : Nat}
    (hr : isRingList h l) (hn : n ∈ l) (hnd : l.Nodup) (hlen : 2 ≤ l.length) :
    (h n).next ≠ n := by
  obtain ⟨rest, hrt, hperm⟩ := ring_head_rotation hr hn
  rcases rest with _ | ⟨m, rest'⟩
  · have hl := hperm.length_eq
    simp only [List.length_cons, List.length_nil] at hl
    omega
  · have hm : (h n).next = m := (ring_next_head hrt).1
    have hndr : (n :: m :: rest').Nodup := hperm.nodup_iff.2 hnd
    rw [hm]
    intro he
    subst he
    exact (List.nodup_cons.1 hndr).1 (List.mem_cons_self _ _)

/-- Core lemma for `delete` on a ring with at least two nodes: splicing out `n`
re-establishes all ring conditions, for any new cursor `cc` and anchor `anc'`
referencing the shrunken ring. -/
theorem ringConds_erase [DecidableEq T] {h : Nat → RingNode T} {nodes : List (T × Nat)}
    {L1 L2 : List Nat} {n fr : Nat} (cc : Nat) (anc' : Option Nat)
    (hr0 : isRingList h (L1 ++ n :: L2)) (hnd0 : (L1 ++ n :: L2).Nodup)
    (hb0 : ∀ i ∈ L1 ++ n :: L2, i < fr)
    (hp0 : nodes.Perm ((L1 ++ n :: L2).map (fun i => ((h i).value, i))))
    (hvn0 : ((L1 ++ n :: L2).map (fun i => (h i).value)).Nodup)
    (hne : L2 ++ L1 ≠ [])
    (hcc : cc ∈ L1 ++ L2)
    (hanc' : ∀ a, anc' = some a → a ∈ L1 ++ L2) :
    ringConds (spliceOut h n) (mapDelete nodes ((h n).value)) anc' fr
      (idChain (spliceOut h n) cc ((L1 ++ L2).length)) := by
  have hrE : isRingList (spliceOut h n) (L1 ++ L2) := ring_erase hr0 hnd0 hne
  obtain ⟨rest, hrrot, hpermrot⟩ := ring_head_rotation hrE hcc
  have hlen : (L1 ++ L2).length = rest.length + 1 := by
    have hl := hpermrot.length_eq
    simp only [List.length_cons] at hl
    omega
  rw [idChain_of_ring_length hrrot hlen]
  have hndE : (L1 ++ L2).Nodup := by
    have hmid := hnd0
    rw [List.nodup_middle] at hmid
    exact (List.nodup_cons.1 hmid).2
  have hvalE : ∀ j, ((spliceOut h n) j).value = (h j).value := spliceOut_value h n
  have hnotv : (h n).value ∉ (L1 ++ L2).map (fun i => (h i).value) := by
    have hv := hvn0
    rw [List.map_append, List.map_cons, List.nodup_middle, List.nodup_cons] at hv
    rw [List.map_append]
    exact hv.1
  have hone : ∀ (L : List Nat), (∀ i ∈ L, (h i).value ≠ (h n).value) →
      (L.map (fun i => ((h i).value, i))).filter
        (fun p => decide (p.1 ≠ (h n).value)) =
      L.map (fun i => ((h i).value, i)) := by
    intro L hL
    rw [List.filter_eq_self]
    intro p hp
    obtain ⟨i, hi, rfl⟩ := List.mem_map.1 hp
    simpa using hL i hi
  have hL1v : ∀ i ∈ L1, (h i).value ≠ (h n).value := by
    intro i hi he
    apply hnotv
    rw [← he]
    exact List.mem_map.2 ⟨i, List.mem_append_left L2 hi, rfl⟩
  have hL2v : ∀ i ∈ L2, (h i).value ≠ (h n).value := by
    intro i hi he
    apply hnotv
    rw [← he]
    exact List.mem_map.2 ⟨i, List.mem_append_right L1 hi, rfl⟩
  have hfilter : ((L1 ++ n :: L2).map (fun i => ((h i).value, i))).filter
      (fun p => decide (p.1 ≠ (h n).value)) =
      (L1 ++ L2).map (fun i => ((h i).value, i)) := by
    rw [List.map_append, List.map_cons, List.filter_append,
      List.filter_cons_of_neg (by simp), hone L1 hL1v, hone L2 hL2v, List.map_append]
  refine ⟨hrrot, ?_, ?_, ?_, ?_, ?_⟩
  · exact hpermrot.nodup_iff.2 hndE
  · exact fun a ha => hpermrot.mem_iff.2 (hanc' a ha)
  · intro i hi
    apply hb0
    rcases List.mem_append.1 (hpermrot.subset hi) with h1 | h2
    · exact List.mem_append_left _ h1
    · exact List.mem_append_right _ (List.mem_cons_of_mem n h2)
  · have hmapE : (L1 ++ L2).map (fun i => (((spliceOut h n) i).value, i)) =
        (L1 ++ L2).map (fun i => ((h i).value, i)) :=
      List.map_congr_left (fun i _ => by rw [hvalE i])
    have hpd := hp0.filter (fun p => decide (p.1 ≠ (h n).value))
    rw [hfilter] at hpd
    have hrot := hpermrot.map (fun i => (((spliceOut h n) i).value, i))
    rw [hmapE] at hrot
    exact hpd.trans hrot.symm
  · have hmapv : (L1 ++ L2).map (fun i => ((spliceOut h n) i).value) =
        (L1 ++ L2).map (fun i => (h i).value) :=
      List.map_congr_left (fun i _ => by rw [hvalE i])
    have hvE : ((L1 ++ L2).map (fun i => (h i).value)).Nodup := by
      have hv := hvn0
      rw [List.map_append, List.map_cons, List.nodup_middle, List.nodup_cons] at hv
      rw [List.map_append]
      exact hv.2
    have h5 := hpermrot.map (fun i => ((spliceOut h n) i).value)
    rw [hmapv] at h5
    exact h5.nodup_iff.2 hvE

theorem mapGet_some_facts [DecidableEq T] {s : RotatableSet T} {x : T} {n : Nat}
    (hwf : WF s) (hget : mapGet s.nodes x = some n) :
    ∃ c, s.current = some c ∧ n ∈ idChain s.heap c s.size ∧ (s.heap n).value = x := by
  cases hc : s.current with
  | none =>
    have hnil : s.nodes = [] := hwf.2.2.1 hc
    rw [hnil] at hget
    simp [mapGet] at hget
  | some c =>
    obtain ⟨_, _, _, _, hp0, _⟩ := hwf.2.2.2 c hc
    obtain ⟨p, hfind, hsnd⟩ := Option.map_eq_some'.1 hget
    obtain ⟨px, pn⟩ := p
    have hp1 : px = x := by simpa using List.find?_some hfind
    have hp2 : pn = n := hsnd
    have hpmem : (x, n) ∈ s.nodes := by
      rw [← hp1, ← hp2]
      exact List.mem_of_find?_eq_some hfind
    have hmem2 := hp0.subset hpmem
    obtain ⟨i, hi, heq⟩ := List.mem_map.1 hmem2
    have hin : i = n := congrArg Prod.snd heq
    subst hin
    exact ⟨c, rfl, hi, congrArg Prod.fst heq⟩

theorem WF_delete [DecidableEq T] {s : RotatableSet T} (hwf : WF s) (x : T) :
    WF (s.delete x).2 := by
  cases hget : mapGet s.nodes x with
  | none =>
    have he : (s.delete x).2 = s := by simp [RotatableSet.delete, hget]
    rw [he]; exact hwf
  | some n =>
    obtain ⟨c, hc, hnmem, hvx⟩ := mapGet_some_facts hwf hget
    obtain ⟨hr0, hnd0, hanc0, hb0, hp0, hvn0⟩ := hwf.2.2.2 c hc
    by_cases hsz : s.size = 1
    · have he : (s.delete x).2 =
          { s with nodes := mapDelete s.nodes x, current := none,
                   insertionHead := none, size := 0 } := by
        simp [RotatableSet.delete, hget, hsz]
      rw [he]
      have hids : idChain s.heap c s.size = [c] := by rw [hsz]; rfl
      rw [hids] at hnmem hp0
      have hnc : n = c := List.mem_singleton.1 hnmem
      subst hnc
      have hnodes : s.nodes = [((s.heap n).value, n)] := by simpa using hp0
      have hdel : mapDelete s.nodes x = [] := by
        rw [hnodes, mapDelete, List.filter_cons_of_neg (by simp [hvx]),
          List.filter_nil]
      refine ⟨by simp, by simp, by simp [hdel], ?_⟩
      intro c' hc'
      simp at hc'
    · have hpos : 0 < s.size := size_pos_of_current hwf hc
      have hsz2 : 2 ≤ s.size := by omega
      have he : (s.delete x).2 =
          { s with heap := spliceOut s.heap n,
                   nodes := mapDelete s.nodes x,
                   current := if s.current = some n then some ((s.heap n).next)
                     else s.current,
                   insertionHead := if s.insertionHead = some n
                     then some ((s.heap n).next) else s.insertionHead,
                   size := s.size - 1 } := by
        simp only [RotatableSet.delete, hget, spliceOut]
        rw [if_neg hsz]
      rw [he]
      obtain ⟨L1, L2, hdec⟩ := List.append_of_mem hnmem
      have hlenids : (idChain s.heap c s.size).length = s.size := idChain_length _ _ _
      have hnxt_ne : (s.heap n).next ≠ n :=
        ring_next_ne hr0 hnmem hnd0 (by rw [hlenids]; exact hsz2)
      have hnxt_mem : (s.heap n).next ∈ L1 ++ L2 := by
        apply mem_of_mem_middle _ hnxt_ne
        rw [← hdec]
        exact (ring_mem_next_prev hr0 hnmem).1
      have hcur_mem : ∀ c₂, (if s.current = some n then some ((s.heap n).next)
          else s.current) = some c₂ → c₂ ∈ L1 ++ L2 := by
        intro c₂ hc₂
        by_cases hcn : s.current = some n
        · rw [if_pos hcn] at hc₂
          simp only [Option.some_inj] at hc₂
          subst hc₂
          exact hnxt_mem
        · rw [if_neg hcn, hc] at hc₂
          simp only [Option.some_inj] at hc₂
          rw [hc] at hcn
          have hcne : c₂ ≠ n := by
            intro he'
            apply hcn
            rw [hc₂, he']
          apply mem_of_mem_middle _ hcne
          rw [← hdec, ← hc₂]
          exact idChain_head_mem s.heap c hpos
      have hanc_mem : ∀ a', (if s.insertionHead = some n then some ((s.heap n).next)
          else s.insertionHead) = some a' → a' ∈ L1 ++ L2 := by
        intro a' ha'
        by_cases han : s.insertionHead = some n
        · rw [if_pos han] at ha'
          simp only [Option.some_inj] at ha'
          subst ha'
          exact hnxt_mem
        · rw [if_neg han] at ha'
          have hane : a' ≠ n := fun he' => han (by rw [ha', he'])
          apply mem_of_mem_middle _ hane
          rw [← hdec]
          exact hanc0 a' ha'
      have hne2 : L2 ++ L1 ≠ [] := by
        intro hnil
        have hl : (L1 ++ n :: L2).length = s.size := by rw [← hdec, hlenids]
        have hl2 : L2.length + L1.length = 0 := by
          have := congrArg List.length hnil
          simpa [List.length_append] using this
        simp only [List.length_append, List.length_cons] at hl
        omega
      have hcur_some : (if s.current = some n then some ((s.heap n).next)
          else s.current) ≠ none := by
        by_cases hcn : s.current = some n
        · simp [hcn]
        · rw [if_neg hcn, hc]; simp
      have hanc_ne : s.insertionHead ≠ none := by
        intro hn0
        have := hwf.2.1.1 hn0
        omega
      have hanc_some : (if s.insertionHead = some n then some ((s.heap n).next)
          else s.insertionHead) ≠ none := by
        by_cases han : s.insertionHead = some n
        · simp [han]
        · rw [if_neg han]; exact hanc_ne
      have hsize_ne : ¬(s.size - 1 = 0) := by omega
      refine ⟨iff_of_false hcur_some hsize_ne, iff_of_false hanc_some hsize_ne,
        fun hcontra => absurd hcontra hcur_some, ?_⟩
      intro c₂ hc₂
      rw [hdec] at hr0 hnd0 hb0 hp0 hvn0
      have hcore := ringConds_erase c₂
        (if s.insertionHead = some n then some ((s.heap n).next)
          else s.insertionHead)
        hr0 hnd0 hb0 hp0 hvn0 hne2 (hcur_mem c₂ hc₂) hanc_mem
      have hlen2 : (L1 ++ L2).length = s.size - 1 := by
        have hl : (L1 ++ n :: L2).length = s.size := by rw [← hdec, hlenids]
        simp only [List.length_append, List.length_cons] at hl
        simp only [List.length_append]
        omega
      rw [hlen2, hvx] at hcore
      exact hcore

theorem WF_foldl_addToFurthest [DecidableEq T] :
    ∀ (l : List T) (s : RotatableSet T), WF s →
      WF (l.foldl RotatableSet.addToFurthest s)
  | [], _, hs => hs
  | y :: l, _, hs => WF_foldl_addToFurthest l _ (WF_addToFurthest hs y)

theorem WF_ofItems [DecidableEq T] [Inhabited T] (items : List T) :
    WF (ofItems items : RotatableSet T) :=
  WF_foldl_addToFurthest items _ WF_emptySet

theorem collectValues_length (h : Nat → RingNode T) (x : Nat) (k : Nat) :
    (collectValues h x k).length = k := by
  rw [collectValues_eq_map, List.length_map, idChain_length]

theorem nextIter_wrap [DecidableEq T] {s : RotatableSet T} (hwf : WF s)
    {c : Nat} (hc : s.current = some c) : nextIter s.heap c s.size = c := by
  have hpos : 0 < s.size := size_pos_of_current hwf hc
  obtain ⟨k, hk⟩ : ∃ k, s.size = k + 1 :=
    ⟨s.size - 1, (Nat.succ_pred_eq_of_pos hpos).symm⟩
  have hr0 := (hwf.2.2.2 c hc).1
  have hids : idChain s.heap c s.size = c :: idChain s.heap ((s.heap c).next) k := by
    rw [hk]; rfl
  rw [hids] at hr0
  have hwrap := nextIter_of_ring hr0
  rw [idChain_length] at hwrap
  rw [hk]
  exact hwrap

theorem cycleAux_spec : ∀ (k : Nat) (s : RotatableSet T) (c : Nat),
    s.current = some c →
    cycleAux k s = (collectValues s.heap c k,
      { s with current := some (nextIter s.heap c k) })
  | 0, s, c, hc => by
    have hs : ({ s with current := some (nextIter s.heap c 0) } : RotatableSet T) = s := by
      show ({ s with current := some c } : RotatableSet T) = s
      rw [← hc]
    rw [hs]
    rfl
  | k + 1, s, c, hc => by
    have hnx : s.next = ((Except.ok (s.heap c).value : Except RSError T),
        { s with current := some ((s.heap c).next) }) := by
      simp [RotatableSet.next, hc]
    have ih := cycleAux_spec k { s with current := some ((s.heap c).next) }
      ((s.heap c).next) rfl
    show (match s.next with
      | (.ok v, s') => ((fun r => (v :: r.1, r.2)) (cycleAux k s'))
      | (.error _, s') => ([], s')) =
      (collectValues s.heap c (k + 1),
        { s with current := some (nextIter s.heap c (k + 1)) })
    rw [hnx]
    simp only []
    rw [ih]
    rfl

theorem cycle_spec [DecidableEq T] {s : RotatableSet T} (hwf : WF s) :
    s.cycle = (s.toArray, s) := by
  cases hc : s.current with
  | none =>
    have hsz : s.size = 0 := hwf.1.1 hc
    simp [RotatableSet.cycle, hsz, cycleAux, RotatableSet.toArray, hc]
  | some c =>
    rw [RotatableSet.cycle, cycleAux_spec s.size s c hc, nextIter_wrap hwf hc]
    have harr : s.toArray = collectValues s.heap c s.size := by
      simp [RotatableSet.toArray, hc]
    rw [harr]
    have hs : ({ s with current := some c } : RotatableSet T) = s := by rw [← hc]
    rw [hs]

theorem WF_cycle [DecidableEq T] {s : RotatableSet T} (hwf : WF s) :
    WF (s.cycle).2 := by
  rw [cycle_spec hwf]
  exact hwf

theorem Invariant_of_WF [DecidableEq T] {s : RotatableSet T} (hwf : WF s) :
    Invariant s := by
  refine ⟨?_, ?_, hwf.1, hwf.2.1⟩
  · cases hc : s.current with
    | none =>
      rw [hwf.2.2.1 hc, List.length_nil, (hwf.1.1 hc)]
    | some c =>
      obtain ⟨_, _, _, _, hp0, _⟩ := hwf.2.2.2 c hc
      rw [hp0.length_eq, List.length_map, idChain_length]
  · intro c hc
    obtain ⟨hr0, hnd0, hanc0, _, hp0, _⟩ := hwf.2.2.2 c hc
    have hpos : 0 < s.size := size_pos_of_current hwf hc
    refine ⟨nextIter_wrap hwf hc, hnd0, ?_, ?_, ?_⟩
    · exact fun i hi => ring_backlinks hr0 i hi
    · intro a ha
      have hamem : a ∈ idChain s.heap c s.size := hanc0 a ha
      have : ((s.heap a).value, a) ∈
          (idChain s.heap c s.size).map (fun i => ((s.heap i).value, i)) :=
        List.mem_map.2 ⟨a, hamem, rfl⟩
      exact ⟨((s.heap a).value, a), hp0.mem_iff.2 this, rfl⟩
    · have hcmem : c ∈ idChain s.heap c s.size := idChain_head_mem s.heap c hpos
      have : ((s.heap c).value, c) ∈
          (idChain s.heap c s.size).map (fun i => ((s.heap i).value, i)) :=
        List.mem_map.2 ⟨c, hcmem, rfl⟩
      exact ⟨((s.heap c).value, c), hp0.mem_iff.2 this, rfl⟩

theorem mapHas_mapSet_self [DecidableEq T] (m : List (T × Nat)) (k : T) (v : Nat) :
    mapHas (mapSet m k v) k = true := by
  by_cases hm : mapHas m k = true
  · rw [mapSet, if_pos hm, mapHas_iff]
    obtain ⟨p, hp, hpk⟩ := List.mem_map.1 (mapHas_iff.1 hm)
    refine List.mem_map.2 ⟨(k, v), ?_, rfl⟩
    exact List.mem_map.2 ⟨p, hp, by rw [if_pos hpk]⟩
  · rw [mapSet, if_neg hm, mapHas_iff, List.map_append]
    exact List.mem_append_right _ (by simp)

theorem addToFurthest_of_has [DecidableEq T] {s : RotatableSet T} {x : T}
    (h : mapHas s.nodes x = true) : s.addToFurthest x = s := by
  rw [RotatableSet.addToFurthest, if_pos h]

theorem addToNext_of_has [DecidableEq T] {s : RotatableSet T} {x : T}
    (h : mapHas s.nodes x = true) : s.addToNext x = s := by
  rw [RotatableSet.addToNext, if_pos h]

theorem addToFurthest_self_or_nodes [DecidableEq T] (s : RotatableSet T) (x : T) :
    s.addToFurthest x = s ∨ (s.addToFurthest x).nodes = mapSet s.nodes x s.fresh := by
  rw [RotatableSet.addToFurthest]
  by_cases hm : mapHas s.nodes x = true
  · left; rw [if_pos hm]
  · rw [if_neg hm]
    cases hc : s.current with
    | none => right; rfl
    | some c =>
      cases ha : s.insertionHead with
      | none => left; rfl
      | some a => right; rfl

theorem addToNext_nodes [DecidableEq T] (s : RotatableSet T) (x : T)
    (hm : ¬(mapHas s.nodes x = true)) :
    (s.addToNext x).nodes = mapSet s.nodes x s.fresh := by
  rw [RotatableSet.addToNext, if_neg hm]
  cases hc : s.current with
  | none => rfl
  | some c => rfl

theorem toArray_length [DecidableEq T] {s : RotatableSet T} (hwf : WF s) :
    s.toArray.length = s.size := by
  cases hc : s.current with
  | none =>
    rw [hwf.1.1 hc]
    simp [RotatableSet.toArray, hc]
  | some c =>
    simp [RotatableSet.toArray, hc, collectValues_length]

/-! ### The claims -/

/-- C5: every state-producing public operation (construction, addToFurthest,
addToNext, add, delete, clear, next, cycle) preserves the state invariants:
size agrees with the membership index and with the number of nodes reached by
following `next` from the cursor `size` times back to the cursor, the ring is
circular (`node.next.prev == node` and `node.prev.next == node`), cursor and
insertionHead reference indexed nodes, and `size == 0` exactly when cursor,
respectively insertionHead, is the empty marker.  (`peek`, `has`, `toArray`,
`toSet`, `getFurthestItem` do not produce a state and mutate nothing.) -/
theorem claim_C5 [DecidableEq T] [Inhabited T] (s : RotatableSet T) (hwf : WF s)
    (x y : T) (items : List T) :
    (WF (ofItems items : RotatableSet T) ∧ Invariant (ofItems items : RotatableSet T)) ∧
    (WF (s.addToFurthest x) ∧ Invariant (s.addToFurthest x)) ∧
    (WF (s.addToNext x) ∧ Invariant (s.addToNext x)) ∧
    (WF (s.add x) ∧ Invariant (s.add x)) ∧
    (WF (s.delete y).2 ∧ Invariant (s.delete y).2) ∧
    (WF s.clear ∧ Invariant s.clear) ∧
    (WF (s.next).2 ∧ Invariant (s.next).2) ∧
    (WF (s.cycle).2 ∧ Invariant (s.cycle).2) := by
  have h1 := WF_ofItems (T := T) items
  have h2 := WF_addToFurthest hwf x
  have h3 := WF_addToNext hwf x
  have h4 : WF (s.add x) := WF_addToFurthest hwf x
  have h5 := WF_delete hwf y
  have h6 := WF_clear s
  have h7 := WF_next hwf
  have h8 := WF_cycle hwf
  exact ⟨⟨h1, Invariant_of_WF h1⟩, ⟨h2, Invariant_of_WF h2⟩, ⟨h3, Invariant_of_WF h3⟩,
    ⟨h4, Invariant_of_WF h4⟩, ⟨h5, Invariant_of_WF h5⟩, ⟨h6, Invariant_of_WF h6⟩,
    ⟨h7, Invariant_of_WF h7⟩, ⟨h8, Invariant_of_WF h8⟩⟩

/-- C5 witness at concrete inputs. -/
theorem claim_C5_witness :
    WF ((ofItems [1, 2, 3] : RotatableSet ℕ).addToFurthest 4) ∧
    Invariant ((ofItems [1, 2, 3] : RotatableSet ℕ).delete 2).2 :=
  ⟨((claim_C5 (ofItems [1, 2, 3]) (WF_ofItems _) 4 2 []).2.1).1,
   ((claim_C5 (ofItems [1, 2, 3]) (WF_ofItems _) 4 2 []).2.2.2.2.1).2⟩

/-- C7: `next`, `peek` and `getFurthestItem` fail with the EmptyCollection
error exactly when `size == 0`; `getFurthestItem` fails with InvalidOffset on
non-finite indexes (never clamped); a failing `next` leaves the state
unchanged (`peek` and `getFurthestItem` never mutate by construction). -/
theorem claim_C7 [DecidableEq T] [Inhabited T] (s : RotatableSet T) (hwf : WF s) :
    ((s.next).1 = .error .emptyCollection ↔ s.size = 0) ∧
    ((s.next).1 = .error .emptyCollection → (s.next).2 = s) ∧
    (s.peek = .error .emptyCollection ↔ s.size = 0) ∧
    (∀ k : JSNumber, s.getFurthestItem k = .error .emptyCollection ↔ s.size = 0) ∧
    (0 < s.size →
      s.getFurthestItem .nan = .error .invalidOffset ∧
      s.getFurthestItem .posInf = .error .invalidOffset ∧
      s.getFurthestItem .negInf = .error .invalidOffset ∧
      ∀ q : ℚ, ∃ v, s.getFurthestItem (.finite q) = .ok v) := by
  cases hc : s.current with
  | none =>
    have hsz : s.size = 0 := hwf.1.1 hc
    refine ⟨?_, ?_, ?_, ?_, ?_⟩
    · simp [RotatableSet.next, hc, hsz]
    · simp [RotatableSet.next, hc]
    · simp [RotatableSet.peek, hc, hsz]
    · intro k; simp [RotatableSet.getFurthestItem, hc, hsz]
    · intro hpos; omega
  | some c =>
    have hpos : 0 < s.size := size_pos_of_current hwf hc
    have hsz : ¬(s.size = 0) := by omega
    refine ⟨?_, ?_, ?_, ?_, ?_⟩
    · simp [RotatableSet.next, hc, hsz]
    · simp [RotatableSet.next, hc]
    · simp [RotatableSet.peek, hc, hsz]
    · intro k
      cases k <;> simp [RotatableSet.getFurthestItem, hc, hsz]
    · intro _
      refine ⟨by simp [RotatableSet.getFurthestItem, hc], by
        simp [RotatableSet.getFurthestItem, hc], by
        simp [RotatableSet.getFurthestItem, hc], ?_⟩
      intro q
      cases hres : s.getFurthestItem (JSNumber.finite q) with
      | ok v => exact ⟨v, rfl⟩
      | error e =>
        exfalso
        simp [RotatableSet.getFurthestItem, hc] at hres

/-- C7 witness: empty-collection failures on the empty set, invalid-offset on
a non-empty set with NaN. -/
theorem claim_C7_witness :
    ((emptySet ℕ).next).1 = .error .emptyCollection ∧
    (ofItems [1, 2] : RotatableSet ℕ).getFurthestItem .nan = .error .invalidOffset :=
  ⟨(claim_C7 (emptySet ℕ) WF_emptySet).1.2 rfl,
   ((claim_C7 (ofItems [1, 2]) (WF_ofItems _)).2.2.2.2 (by decide)).1⟩

/-- C8: fully consuming `cycle()` yields exactly `size` values (read when
iteration begins) equal to `toArray()` in order, and returns the state to
exactly its pre-iteration value, so the cursor has made a full loop and
`peek` is unchanged. -/
theorem claim_C8 [DecidableEq T] (s : RotatableSet T) (hwf : WF s) :
    (s.cycle).1.length = s.size ∧
    (s.cycle).1 = s.toArray ∧
    (s.cycle).2 = s ∧
    (s.cycle).2.peek = s.peek := by
  have hcs := cycle_spec hwf
  refine ⟨?_, ?_, ?_, ?_⟩
  · rw [hcs]; exact toArray_length hwf
  · rw [hcs]
  · rw [hcs]
  · rw [hcs]

/-- C8 witness at a concrete rotated three-item set. -/
theorem claim_C8_witness :
    (((ofItems [1, 2, 3] : RotatableSet ℕ).next).2.cycle).1 =
      ((ofItems [1, 2, 3] : RotatableSet ℕ).next).2.toArray ∧
    (((ofItems [1, 2, 3] : RotatableSet ℕ).next).2.cycle).2 =
      ((ofItems [1, 2, 3] : RotatableSet ℕ).next).2 :=
  ⟨(claim_C8 _ (WF_next (WF_ofItems _))).2.1,
   (claim_C8 _ (WF_next (WF_ofItems _))).2.2.1⟩

/-- C9: adding an already-present value is a no-op, and hence both add
operations are idempotent: the second application returns the state of the
first unchanged (same size, toArray, cursor and anchor). -/
theorem claim_C9 [DecidableEq T] (s : RotatableSet T) (x : T) :
    (s.addToFurthest x).addToFurthest x = s.addToFurthest x ∧
    (s.addToNext x).addToNext x = s.addToNext x ∧
    (s.has x = true → s.addToFurthest x = s ∧ s.addToNext x = s) := by
  refine ⟨?_, ?_, ?_⟩
  · rcases addToFurthest_self_or_nodes s x with he | hn
    · rw [he]; exact he
    · exact addToFurthest_of_has (by rw [hn]; exact mapHas_mapSet_self _ _ _)
  · by_cases hm : mapHas s.nodes x = true
    · rw [addToNext_of_has hm]; exact addToNext_of_has hm
    · exact addToNext_of_has (by rw [addToNext_nodes s x hm]; exact mapHas_mapSet_self _ _ _)
  · intro hhas
    exact ⟨addToFurthest_of_has hhas, addToNext_of_has hhas⟩

/-- C9 witness: double insertion and duplicate insertion on concrete sets. -/
theorem claim_C9_witness :
    ((ofItems [1, 2] : RotatableSet ℕ).addToFurthest 3).addToFurthest 3 =
      (ofItems [1, 2] : RotatableSet ℕ).addToFurthest 3 ∧
    (ofItems [1, 2] : RotatableSet ℕ).addToFurthest 2 = ofItems [1, 2] :=
  ⟨(claim_C9 (ofItems [1, 2]) 3).1,
   ((claim_C9 (ofItems [1, 2]) 2).2.2 (by decide)).1⟩

/-- C10: on an empty set `getFurthestItem` fails with the empty-collection
error for every index, including NaN and ±Infinity — the emptiness check runs
before the finiteness check, so invalid-offset is unreachable on empty sets. -/
theorem claim_C10 [DecidableEq T] [Inhabited T] (s : RotatableSet T) (hwf : WF s)
    (hsz : s.size = 0) :
    ∀ k : JSNumber, s.getFurthestItem k = .error .emptyCollection ∧
      s.getFurthestItem k ≠ .error .invalidOffset := by
  have hc : s.current = none := hwf.1.2 hsz
  intro k
  constructor
  · simp [RotatableSet.getFurthestItem, hc]
  · simp [RotatableSet.getFurthestItem, hc]

/-- C10 witness: the empty set with a NaN index. -/
theorem claim_C10_witness :
    (emptySet ℕ).getFurthestItem .nan = .error .emptyCollection ∧
    (emptySet ℕ).getFurthestItem .nan ≠ .error .invalidOffset :=
  claim_C10 (emptySet ℕ) WF_emptySet rfl .nan

theorem mapHas_mapDelete_self [DecidableEq T] (m : List (T × Nat)) (k : T) :
    mapHas (mapDelete m k) k = false := by
  rw [mapHas_false_iff]
  intro hmem
  obtain ⟨p, hp, hpk⟩ := List.mem_map.1 hmem
  have hfil := List.of_mem_filter hp
  rw [hpk] at hfil
  simp at hfil

/-- The pointer-level effect of `addToFurthest` on a non-empty well-formed
state: the fresh node is linked immediately before the `insertionHead` node,
and neither cursor nor anchor moves. -/
theorem addToFurthest_links_before_anchor [DecidableEq T] {s : RotatableSet T}
    {x : T} (hwf : WF s) (hx : mapHas s.nodes x = false) {a : Nat}
    (ha : s.insertionHead = some a) :
    (s.addToFurthest x).current = s.current ∧
    (s.addToFurthest x).insertionHead = s.insertionHead ∧
    ((s.addToFurthest x).heap s.fresh).value = x ∧
    ((s.addToFurthest x).heap s.fresh).next = a ∧
    ((s.addToFurthest x).heap a).prev = s.fresh ∧
    ((s.addToFurthest x).heap s.fresh).prev = (s.heap a).prev ∧
    ((s.addToFurthest x).heap ((s.heap a).prev)).next = s.fresh ∧
    (s.addToFurthest x).size = s.size + 1 := by
  have hsz : s.size ≠ 0 := by
    intro h0
    rw [hwf.2.1.2 h0] at ha
    cases ha
  obtain ⟨c, hc⟩ : ∃ c, s.current = some c := by
    cases hcc : s.current with
    | none => exact absurd (hwf.1.1 hcc) hsz
    | some c => exact ⟨c, rfl⟩
  have he : s.addToFurthest x =
      { heap := insertBefore (hUpdate s.heap s.fresh ⟨x, s.fresh, s.fresh⟩) a s.fresh,
        current := some c, insertionHead := some a,
        nodes := mapSet s.nodes x s.fresh, size := s.size + 1,
        fresh := s.fresh + 1 } := by
    simp [RotatableSet.addToFurthest, hx, hc, ha]
  obtain ⟨hr0, hnd0, hanc0, hb0, hp0, hvn0⟩ := hwf.2.2.2 c hc
  have hamem : a ∈ idChain s.heap c s.size := hanc0 a ha
  have hpmem : (s.heap a).prev ∈ idChain s.heap c s.size :=
    (ring_mem_next_prev hr0 hamem).2
  have hta : a ≠ s.fresh := Nat.ne_of_lt (hb0 a hamem)
  have hpa : (s.heap a).prev ≠ s.fresh := Nat.ne_of_lt (hb0 _ hpmem)
  obtain ⟨hnu, hframe, hsplit, hsingle⟩ :=
    insertBefore_fresh_spec (h := s.heap) (x := x) hta hpa
  rw [he]
  dsimp only
  refine ⟨hc.symm, ha.symm, by rw [hnu], by rw [hnu], ?_, by rw [hnu], ?_, rfl⟩
  · by_cases hpt : (s.heap a).prev = a
    · rw [hsingle hpt]
    · rw [(hsplit hpt).2]
  · by_cases hpt : (s.heap a).prev = a
    · rw [hpt, hsingle hpt]
    · rw [(hsplit hpt).1]

/-- C1: `addToFurthest` on an empty set makes the new node both cursor and
anchor; on a non-empty set it links a new node holding `x` immediately before
the `insertionHead` node, leaving cursor and anchor untouched.  Concretely:
from `[1,2,3]`, after one `next()`, `addToFurthest 4` gives
`toArray == [2,3,4,1]`. -/
theorem claim_C1 [DecidableEq T] [Inhabited T] (s : RotatableSet T) (x : T)
    (hwf : WF s) (hx : s.has x = false) :
    (s.size = 0 →
      (s.addToFurthest x).current = some s.fresh ∧
      (s.addToFurthest x).insertionHead = some s.fresh ∧
      ((s.addToFurthest x).heap s.fresh).value = x ∧
      (s.addToFurthest x).size = 1) ∧
    (∀ a, s.insertionHead = some a →
      (s.addToFurthest x).current = s.current ∧
      (s.addToFurthest x).insertionHead = s.insertionHead ∧
      ((s.addToFurthest x).heap s.fresh).value = x ∧
      ((s.addToFurthest x).heap s.fresh).next = a ∧
      ((s.addToFurthest x).heap a).prev = s.fresh ∧
      ((s.addToFurthest x).heap s.fresh).prev = (s.heap a).prev ∧
      ((s.addToFurthest x).heap ((s.heap a).prev)).next = s.fresh ∧
      (s.addToFurthest x).size = s.size + 1) ∧
    ((((ofItems [1, 2, 3] : RotatableSet ℕ).next).2.addToFurthest 4).toArray =
      [2, 3, 4, 1]) := by
  have hhas' : mapHas s.nodes x = false := hx
  refine ⟨?_, ?_, by decide⟩
  · intro hsz
    have hc : s.current = none := hwf.1.2 hsz
    have he : s.addToFurthest x =
        { heap := hUpdate s.heap s.fresh ⟨x, s.fresh, s.fresh⟩,
          current := some s.fresh, insertionHead := some s.fresh,
          nodes := mapSet s.nodes x s.fresh, size := s.size + 1,
          fresh := s.fresh + 1 } := by
      simp [RotatableSet.addToFurthest, hhas', hc]
    refine ⟨by rw [he], by rw [he], by rw [he]; simp, by rw [he, hsz]⟩
  · intro a ha
    exact addToFurthest_links_before_anchor hwf hhas' ha

/-- C1 witness: the concrete scenario state. -/
theorem claim_C1_witness :
    (((ofItems [1, 2, 3] : RotatableSet ℕ).next).2.addToFurthest 4).current =
      ((ofItems [1, 2, 3] : RotatableSet ℕ).next).2.current ∧
    (((ofItems [1, 2, 3] : RotatableSet ℕ).next).2.addToFurthest 4).toArray =
      [2, 3, 4, 1] :=
  ⟨((claim_C1 ((ofItems [1, 2, 3] : RotatableSet ℕ).next).2 4
      (WF_next (WF_ofItems _)) (by decide)).2.1 0 (by decide)).1,
   (claim_C1 ((ofItems [1, 2, 3] : RotatableSet ℕ).next).2 4
      (WF_next (WF_ofItems _)) (by decide)).2.2⟩

/-- C2: `addToNext` on an empty set behaves exactly like `addToFurthest`; on
a non-empty set it links the new node holding `x` immediately before the
cursor node and makes the new node the cursor, so `peek` and the next `next()`
return `x` and the following `next()` resumes with the previously-current
value, while `insertionHead` is untouched.  Concretely: from `{1,2,3}` after
`next()` returned 1, `addToNext 99` gives `peek == 99`, `next() == 99`, then
`next() == 2`. -/
theorem claim_C2 [DecidableEq T] [Inhabited T] (s : RotatableSet T) (x : T)
    (hwf : WF s) (hx : s.has x = false) :
    (s.size = 0 → s.addToNext x = s.addToFurthest x) ∧
    (∀ c, s.current = some c →
      (s.addToNext x).current = some s.fresh ∧
      (s.addToNext x).insertionHead = s.insertionHead ∧
      ((s.addToNext x).heap s.fresh).value = x ∧
      ((s.addToNext x).heap s.fresh).next = c ∧
      ((s.addToNext x).heap c).prev = s.fresh ∧
      (s.addToNext x).peek = .ok x ∧
      ((s.addToNext x).next).1 = .ok x ∧
      ((s.addToNext x).next).2.peek = s.peek ∧
      (s.addToNext x).size = s.size + 1) ∧
    ((((ofItems [1, 2, 3] : RotatableSet ℕ).next).2.addToNext 99).peek = .ok 99 ∧
     ((((ofItems [1, 2, 3] : RotatableSet ℕ).next).2.addToNext 99).next).1 = .ok 99 ∧
     (((((ofItems [1, 2, 3] : RotatableSet ℕ).next).2.addToNext 99).next).2.next).1 =
       .ok 2) := by
  have hhas' : mapHas s.nodes x = false := hx
  refine ⟨?_, ?_, by decide, by decide, by decide⟩
  · intro hsz
    have hc : s.current = none := hwf.1.2 hsz
    simp [RotatableSet.addToNext, RotatableSet.addToFurthest, hhas', hc]
  · intro c hc
    have he : s.addToNext x =
        { heap := insertBefore (hUpdate s.heap s.fresh ⟨x, s.fresh, s.fresh⟩) c s.fresh,
          current := some s.fresh, insertionHead := s.insertionHead,
          nodes := mapSet s.nodes x s.fresh, size := s.size + 1,
          fresh := s.fresh + 1 } := by
      simp [RotatableSet.addToNext, hhas', hc]
    obtain ⟨hr0, hnd0, hanc0, hb0, hp0, hvn0⟩ := hwf.2.2.2 c hc
    have hpos : 0 < s.size := size_pos_of_current hwf hc
    have hcmem : c ∈ idChain s.heap c s.size := idChain_head_mem s.heap c hpos
    have hpmem : (s.heap c).prev ∈ idChain s.heap c s.size :=
      (ring_mem_next_prev hr0 hcmem).2
    have hta : c ≠ s.fresh := Nat.ne_of_lt (hb0 c hcmem)
    have hpa : (s.heap c).prev ≠ s.fresh := Nat.ne_of_lt (hb0 _ hpmem)
    obtain ⟨hnu, hframe, hsplit, hsingle⟩ :=
      insertBefore_fresh_spec (h := s.heap) (x := x) hta hpa
    have hval_c : ((insertBefore (hUpdate s.heap s.fresh ⟨x, s.fresh, s.fresh⟩)
        c s.fresh) c).value = (s.heap c).value :=
      insertBefore_value c hta
    rw [he]
    dsimp only
    refine ⟨rfl, rfl, by rw [hnu], by rw [hnu], ?_, ?_, ?_, ?_, rfl⟩
    · by_cases hpt : (s.heap c).prev = c
      · rw [hsingle hpt]
      · rw [(hsplit hpt).2]
    · show Except.ok ((insertBefore (hUpdate s.heap s.fresh ⟨x, s.fresh, s.fresh⟩)
        c s.fresh) s.fresh).value = Except.ok x
      rw [hnu]
    · show Except.ok ((insertBefore (hUpdate s.heap s.fresh ⟨x, s.fresh, s.fresh⟩)
        c s.fresh) s.fresh).value = Except.ok x
      rw [hnu]
    · show Except.ok ((insertBefore (hUpdate s.heap s.fresh ⟨x, s.fresh, s.fresh⟩)
        c s.fresh) (((insertBefore (hUpdate s.heap s.fresh ⟨x, s.fresh, s.fresh⟩)
        c s.fresh) s.fresh).next)).value = s.peek
      rw [hnu]
      show Except.ok ((insertBefore (hUpdate s.heap s.fresh ⟨x, s.fresh, s.fresh⟩)
        c s.fresh) c).value = s.peek
      rw [hval_c]
      simp [RotatableSet.peek, hc]

/-- C2 witness: the concrete scenario state. -/
theorem claim_C2_witness :
    (((ofItems [1, 2, 3] : RotatableSet ℕ).next).2.addToNext 99).peek = .ok 99 ∧
    (((ofItems [1, 2, 3] : RotatableSet ℕ).next).2.addToNext 99).insertionHead =
      ((ofItems [1, 2, 3] : RotatableSet ℕ).next).2.insertionHead :=
  ⟨((claim_C2 ((ofItems [1, 2, 3] : RotatableSet ℕ).next).2 99
      (WF_next (WF_ofItems _)) (by decide)).2.1 1 (by decide)).2.2.2.2.2.1,
   ((claim_C2 ((ofItems [1, 2, 3] : RotatableSet ℕ).next).2 99
      (WF_next (WF_ofItems _)) (by decide)).2.1 1 (by decide)).2.1⟩

/-- C3: `delete` of an absent value returns false and changes nothing; of a
present value it returns true, splices the node's neighbours together,
removes it from the index and decrements size; if it was the sole element,
cursor and anchor reset to the empty marker; if it was the cursor
(respectively the anchor), that pointer moves to the node's former `next`. -/
theorem claim_C3 [DecidableEq T] [Inhabited T] (s : RotatableSet T) (x : T)
    (hwf : WF s) :
    (s.has x = false → s.delete x = (false, s)) ∧
    (∀ n, mapGet s.nodes x = some n →
      (s.delete x).1 = true ∧
      (s.delete x).2.has x = false ∧
      (s.delete x).2.size = s.size - 1 ∧
      (s.size = 1 →
        (s.delete x).2.current = none ∧ (s.delete x).2.insertionHead = none) ∧
      (2 ≤ s.size →
        ((s.delete x).2.heap ((s.heap n).prev)).next = (s.heap n).next ∧
        ((s.delete x).2.heap ((s.heap n).next)).prev = (s.heap n).prev ∧
        (s.current = some n → (s.delete x).2.current = some ((s.heap n).next)) ∧
        (s.current ≠ some n → (s.delete x).2.current = s.current) ∧
        (s.insertionHead = some n →
          (s.delete x).2.insertionHead = some ((s.heap n).next)) ∧
        (s.insertionHead ≠ some n →
          (s.delete x).2.insertionHead = s.insertionHead))) := by
  constructor
  · intro hhas
    have hget : mapGet s.nodes x = none := mapGet_eq_none (mapHas_false_iff.1 hhas)
    simp [RotatableSet.delete, hget]
  · intro n hget
    obtain ⟨c, hc, hnmem, hvx⟩ := mapGet_some_facts hwf hget
    obtain ⟨hr0, hnd0, hanc0, hb0, hp0, hvn0⟩ := hwf.2.2.2 c hc
    by_cases hsz : s.size = 1
    · have hfull : s.delete x =
          (true, { s with nodes := mapDelete s.nodes x, current := none,
                          insertionHead := none, size := 0 }) := by
        simp [RotatableSet.delete, hget, hsz]
      refine ⟨by rw [hfull], ?_, by rw [hfull, hsz], by rw [hfull]; exact fun _ => ⟨rfl, rfl⟩,
        fun h2 => absurd hsz (by omega)⟩
      show mapHas (s.delete x).2.nodes x = false
      rw [hfull]
      exact mapHas_mapDelete_self s.nodes x
    · have hfull : s.delete x =
          (true, { s with heap := spliceOut s.heap n,
                          nodes := mapDelete s.nodes x,
                          current := if s.current = some n then some ((s.heap n).next)
                            else s.current,
                          insertionHead := if s.insertionHead = some n
                            then some ((s.heap n).next) else s.insertionHead,
                          size := s.size - 1 }) := by
        simp only [RotatableSet.delete, hget, spliceOut]
        rw [if_neg hsz]
      have hpos : 0 < s.size := size_pos_of_current hwf hc
      have hsz2 : 2 ≤ s.size := by omega
      have hlenids : (idChain s.heap c s.size).length = s.size := idChain_length _ _ _
      have hnxt_ne : (s.heap n).next ≠ n :=
        ring_next_ne hr0 hnmem hnd0 (by rw [hlenids]; exact hsz2)
      have hprev_ne : (s.heap n).prev ≠ n := by
        intro hpn
        have hbk := (ring_backlinks hr0 n hnmem).2
        rw [hpn] at hbk
        exact hnxt_ne hbk
      obtain ⟨hframe, hsplit2, hdouble⟩ := spliceOut_spec hprev_ne
      refine ⟨by rw [hfull], ?_, by rw [hfull],
        fun h1 => absurd h1 hsz, ?_⟩
      · show mapHas (s.delete x).2.nodes x = false
        rw [hfull]
        exact mapHas_mapDelete_self s.nodes x
      · intro _
        refine ⟨?_, ?_, ?_, ?_, ?_, ?_⟩
        · rw [hfull]
          show (spliceOut s.heap n ((s.heap n).prev)).next = (s.heap n).next
          by_cases hpn : (s.heap n).prev = (s.heap n).next
          · rw [hpn, hdouble hpn]
          · rw [(hsplit2 hpn).1]
        · rw [hfull]
          show (spliceOut s.heap n ((s.heap n).next)).prev = (s.heap n).prev
          by_cases hpn : (s.heap n).prev = (s.heap n).next
          · rw [hdouble hpn]
          · rw [(hsplit2 hpn).2]
        · intro hcn; rw [hfull]; show (if s.current = some n then _ else _) = _
          rw [if_pos hcn]
        · intro hcn; rw [hfull]; show (if s.current = some n then _ else _) = _
          rw [if_neg hcn]
        · intro han; rw [hfull]; show (if s.insertionHead = some n then _ else _) = _
          rw [if_pos han]
        · intro han; rw [hfull]; show (if s.insertionHead = some n then _ else _) = _
          rw [if_neg han]

/-- C3 witness: deleting a present and an absent value from `[1,2,3]`. -/
theorem claim_C3_witness :
    (ofItems [1, 2, 3] : RotatableSet ℕ).delete 9 =
      (false, (ofItems [1, 2, 3] : RotatableSet ℕ)) ∧
    ((ofItems [1, 2, 3] : RotatableSet ℕ).delete 2).1 = true ∧
    ((ofItems [1, 2, 3] : RotatableSet ℕ).delete 2).2.size = 2 :=
  ⟨(claim_C3 (ofItems [1, 2, 3]) 9 (WF_ofItems _)).1 (by decide),
   ((claim_C3 (ofItems [1, 2, 3]) 2 (WF_ofItems _)).2 1 (by decide)).1,
   ((claim_C3 (ofItems [1, 2, 3]) 2 (WF_ofItems _)).2 1 (by decide)).2.2.1⟩

theorem mapGet_of_mem_ring [DecidableEq T] {s : RotatableSet T} (hwf : WF s)
    {c n : Nat} (hc : s.current = some c) (hn : n ∈ idChain s.heap c s.size) :
    mapGet s.nodes ((s.heap n).value) = some n := by
  obtain ⟨_, _, _, _, hp0, hvn0⟩ := hwf.2.2.2 c hc
  have hkeys : (s.nodes.map Prod.fst).Nodup := (nodes_fst_perm hp0).nodup_iff.2 hvn0
  have hmem : ((s.heap n).value, n) ∈ s.nodes :=
    hp0.mem_iff.2 (List.mem_map.2 ⟨n, hn, rfl⟩)
  exact mapGet_eq_some hkeys hmem

/-- C4 counterexample: on the concrete run — set from `[1,2,3]`, one `next()`,
`addToNext 4`, delete of the anchor value `1`, then `addToFurthest 5` — the
deleted anchor's former successor is the node holding `4`, and the fresh item
`5` does NOT land at the position immediately after it: `toArray` is
`[4,2,3,5]`, and no position of `toArray` holds `4` with `5` at the
cyclically following position.  (The fresh item lands immediately BEFORE the
former successor instead.) -/
theorem claim_C4_counterexample :
    ((((((ofItems [1, 2, 3] : RotatableSet ℕ).next).2.addToNext 4).delete
        1).2).addToFurthest 5).toArray = [4, 2, 3, 5] ∧
    (∃ a, (((ofItems [1, 2, 3] : RotatableSet ℕ).next).2.addToNext
        4).insertionHead = some a ∧
      ((((ofItems [1, 2, 3] : RotatableSet ℕ).next).2.addToNext 4).heap a).value
        = 1 ∧
      ((((ofItems [1, 2, 3] : RotatableSet ℕ).next).2.addToNext 4).heap
        (((((ofItems [1, 2, 3] : RotatableSet ℕ).next).2.addToNext
          4).heap a).next)).value = 4) ∧
    (∀ i < 4,
      ¬(((((((ofItems [1, 2, 3] : RotatableSet ℕ).next).2.addToNext 4).delete
            1).2).addToFurthest 5).toArray.get? i = some 4 ∧
        ((((((ofItems [1, 2, 3] : RotatableSet ℕ).next).2.addToNext 4).delete
            1).2).addToFurthest 5).toArray.get? ((i + 1) % 4) = some 5)) := by
  refine ⟨by decide, ⟨0, by decide, by decide, by decide⟩, by decide⟩

/-- C4 amended: after deleting the item whose node serves as `insertionHead`,
the next `addToFurthest` of a fresh item links its node immediately BEFORE
the deleted anchor's former successor — i.e. into the cyclic slot the deleted
anchor occupied — observable on `toArray` in the concrete scenario
(`[4,2,3]` becomes `[4,2,3,5]`, with `5` cyclically just before `4`). -/
theorem claim_C4_amended [DecidableEq T] [Inhabited T] (s : RotatableSet T)
    (hwf : WF s) (a : Nat) (ha : s.insertionHead = some a) (hsz : 2 ≤ s.size)
    (y : T) (hy : ((s.delete ((s.heap a).value)).2).has y = false) :
    ((((s.delete ((s.heap a).value)).2).addToFurthest y).heap s.fresh).value = y ∧
    ((((s.delete ((s.heap a).value)).2).addToFurthest y).heap s.fresh).next =
      (s.heap a).next ∧
    ((((s.delete ((s.heap a).value)).2).addToFurthest y).heap
      ((s.heap a).next)).prev = s.fresh ∧
    (((((ofItems [1, 2, 3] : RotatableSet ℕ).next).2.addToNext 4).delete
        1).2.toArray = [4, 2, 3] ∧
     ((((((ofItems [1, 2, 3] : RotatableSet ℕ).next).2.addToNext 4).delete
        1).2.addToFurthest 5).toArray = [4, 2, 3, 5])) := by
  have hszne : s.size ≠ 0 := by omega
  obtain ⟨c, hc⟩ : ∃ c, s.current = some c := by
    cases hcc : s.current with
    | none => exact absurd (hwf.1.1 hcc) hszne
    | some c => exact ⟨c, rfl⟩
  have hamem : a ∈ idChain s.heap c s.size := (hwf.2.2.2 c hc).2.2.1 a ha
  have hget : mapGet s.nodes ((s.heap a).value) = some a :=
    mapGet_of_mem_ring hwf hc hamem
  have he' : (s.delete ((s.heap a).value)).2 =
      { s with heap := spliceOut s.heap a,
               nodes := mapDelete s.nodes ((s.heap a).value),
               current := if s.current = some a then some ((s.heap a).next)
                 else s.current,
               insertionHead := if s.insertionHead = some a
                 then some ((s.heap a).next) else s.insertionHead,
               size := s.size - 1 } := by
    simp only [RotatableSet.delete, hget, spliceOut]
    rw [if_neg (by omega : ¬s.size = 1)]
  have hwf' : WF (s.delete ((s.heap a).value)).2 := WF_delete hwf _
  have hanchor' : ((s.delete ((s.heap a).value)).2).insertionHead =
      some ((s.heap a).next) := by
    rw [he']
    show (if s.insertionHead = some a then some ((s.heap a).next)
      else s.insertionHead) = some ((s.heap a).next)
    rw [if_pos ha]
  have hfr : ((s.delete ((s.heap a).value)).2).fresh = s.fresh := by rw [he']
  have hy' : mapHas ((s.delete ((s.heap a).value)).2).nodes y = false := hy
  obtain ⟨_, _, h3, h4, h5, _, _, _⟩ :=
    addToFurthest_links_before_anchor hwf' hy' hanchor'
  rw [hfr] at h3 h4 h5
  exact ⟨h3, h4, h5, by decide, by decide⟩

/-- C4 amended witness: the concrete scenario, obtained by applying the
amended theorem to the state whose anchor holds the value 1. -/
theorem claim_C4_amended_witness :
    (((((ofItems [1, 2, 3] : RotatableSet ℕ).next).2.addToNext 4).delete
        1).2.toArray = [4, 2, 3]) ∧
    ((((((ofItems [1, 2, 3] : RotatableSet ℕ).next).2.addToNext 4).delete
        1).2.addToFurthest 5).toArray = [4, 2, 3, 5]) :=
  (claim_C4_amended (((ofItems [1, 2, 3] : RotatableSet ℕ).next).2.addToNext 4)
    (WF_addToNext (WF_next (WF_ofItems _)) 4) 0 (by decide) (by decide) 5
    (by decide)).2.2.2

/-! ### Index-based walking of the ring, for `getFurthestItem` -/

theorem chain_get? {R : Nat → Nat → Prop} :
    ∀ {l : List Nat} {x : Nat} (i : Nat) {a b : Nat}, List.Chain R x l →
      (x :: l).get? i = some a → l.get? i = some b → R a b
  | [], _, i, _, _, _, _, hb => by simp at hb
  | z :: l', x, 0, a, b, hch, ha, hb => by
    rw [List.chain_cons] at hch
    simp only [List.get?, Option.some_inj] at ha hb
    rw [← ha, ← hb]
    exact hch.1
  | z :: l', x, i + 1, a, b, hch, ha, hb => by
    rw [List.chain_cons] at hch
    exact chain_get? i hch.2 ha hb

theorem ring_get?_linked {h : Nat → RingNode T} {l : List Nat}
    (hr : isRingList h l) :
    ∀ (i : Nat) {a b : Nat}, l.get? i = some a → l.get? (i + 1) = some b →
      linked h a b := by
  rcases l with _ | ⟨c, xs⟩
  · intro i a b ha _; simp at ha
  · intro i a b ha hb
    have hch : List.Chain (linked h) c (xs ++ [c]) := hr
    obtain ⟨hlt, _⟩ := List.get?_eq_some.1 hb
    have hilt : i < xs.length := by
      simp only [List.length_cons] at hlt
      omega
    refine chain_get? i hch ?_ ?_
    · show ((c :: xs) ++ [c]).get? i = some a
      rw [List.get?_append (by simp; omega)]
      exact ha
    · rw [List.get?_append hilt]
      simpa using hb

theorem ring_prevIter_get? {h : Nat → RingNode T} {l : List Nat}
    (hr : isRingList h l) :
    ∀ (off i a : Nat), off ≤ i → l.get? i = some a →
      ∃ b, l.get? (i - off) = some b ∧ prevIter h a off = b
  | 0, i, a, _, ha => ⟨a, by simpa using ha, rfl⟩
  | off + 1, i, a, hoff, ha => by
    obtain ⟨j, rfl⟩ : ∃ j, i = j + 1 := ⟨i - 1, by omega⟩
    obtain ⟨hlt, _⟩ := List.get?_eq_some.1 ha
    have hjlen : j < l.length := by omega
    obtain ⟨b', hb'⟩ : ∃ b', l.get? j = some b' := ⟨_, List.get?_eq_get hjlen⟩
    have hlink := ring_get?_linked hr j hb' ha
    have hstep : prevIter h a (off + 1) = prevIter h b' off := by
      rw [prevIter_succ, hlink.2]
    obtain ⟨b, hb, hpb⟩ := ring_prevIter_get? hr off j b' (by omega) hb'
    refine ⟨b, ?_, by rw [hstep, hpb]⟩
    rw [Nat.succ_sub_succ]
    exact hb

theorem ring_prev_head_get? {h : Nat → RingNode T} {l : List Nat}
    (hr : isRingList h l) {c : Nat} (hc : l.get? 0 = some c) :
    l.get? (l.length - 1) = some ((h c).prev) := by
  rcases l with _ | ⟨c', xs⟩
  · simp at hc
  · simp only [List.get?, Option.some_inj] at hc
    subst hc
    have hprev := ring_prev_head hr
    rw [List.getLast_eq_get] at hprev
    rw [List.get?_eq_get (by simp)]
    rw [hprev]

theorem neg_tmod_left : ∀ (i n : Int), Int.tmod (-i) n = -(Int.tmod i n)
  | Int.ofNat 0, n => by
    show Int.tmod (-(0 : Int)) n = -(Int.tmod 0 n)
    rw [neg_zero, Int.zero_tmod, neg_zero]
  | Int.ofNat (m + 1), Int.ofNat k => rfl
  | Int.ofNat (m + 1), Int.negSucc k => rfl
  | Int.negSucc m, Int.ofNat k => by
    show Int.tmod (Int.ofNat (m + 1)) (Int.ofNat k) =
      -(Int.tmod (Int.negSucc m) (Int.ofNat k))
    show (Int.ofNat ((m + 1) % k)) = -(-(Int.ofNat ((m + 1) % k)))
    rw [neg_neg]
  | Int.negSucc m, Int.negSucc k => by
    show Int.tmod (Int.ofNat (m + 1)) (Int.negSucc k) =
      -(Int.tmod (Int.negSucc m) (Int.negSucc k))
    show (Int.ofNat ((m + 1) % (k + 1))) = -(-(Int.ofNat ((m + 1) % (k + 1))))
    rw [neg_neg]

/-- The source's JS-`%` normalisation `((i % n) + n) % n` (truncated `%`)
computes the floored modulus. -/
theorem tmod_norm_eq_emod {i : Int} {n : Nat} (hn : 0 < n) :
    (i.tmod (n : Int) + (n : Int)).tmod (n : Int) = i.emod (n : Int) := by
  have hn' : (0 : Int) < (n : Int) := by exact_mod_cast hn
  have hub : i.tmod (n : Int) < (n : Int) := Int.tmod_lt_of_pos i hn'
  have hlb : -(n : Int) < i.tmod (n : Int) := by
    rcases le_or_lt 0 i with hi | hi
    · have h0 := Int.tmod_nonneg (n : Int) hi
      omega
    · have hneg : Int.tmod (-i) (n : Int) < (n : Int) := Int.tmod_lt_of_pos (-i) hn'
      rw [neg_tmod_left] at hneg
      omega
  have hge : (0 : Int) ≤ i.tmod (n : Int) + (n : Int) := by omega
  rw [Int.tmod_eq_emod hge (le_of_lt hn')]
  have h1 : (i.tmod (n : Int) + (n : Int)) % (n : Int) = i.tmod (n : Int) % (n : Int) := by
    have h2 := Int.add_mul_emod_self_left (a := i.tmod (n : Int)) (b := (n : Int)) (c := 1)
    simpa using h2
  rw [h1, Int.tmod_def, sub_eq_add_neg, ← mul_neg, Int.add_mul_emod_self_left]
  rfl

theorem emod_toNat_lt {i : Int} {n : Nat} (hn : 0 < n) :
    (i.emod (n : Int)).toNat < n := by
  have hn' : (0 : Int) < (n : Int) := by exact_mod_cast hn
  have h0 : 0 ≤ i.emod (n : Int) := Int.emod_nonneg i (by omega)
  have h1 : i.emod (n : Int) < (n : Int) := Int.emod_lt_of_pos i hn'
  omega

/-- Full characterisation of `getFurthestItem` on a finite index: the result
is the value `1 + (trunc q mod n)` (floored mod) steps behind the cursor,
which equals the entry of `toArray` at position `n - 1 - (trunc q mod n)`. -/
theorem getFurthestItem_spec [DecidableEq T] [Inhabited T] {s : RotatableSet T}
    (hwf : WF s) {c : Nat} (hc : s.current = some c) (q : ℚ) :
    s.getFurthestItem (.finite q) =
      .ok ((s.heap (prevIter s.heap c
        (1 + ((jsTrunc q).emod (s.size : Int)).toNat))).value) ∧
    s.toArray.get? (s.size - 1 - ((jsTrunc q).emod (s.size : Int)).toNat) =
      some ((s.heap (prevIter s.heap c
        (1 + ((jsTrunc q).emod (s.size : Int)).toNat))).value) := by
  have hpos : 0 < s.size := size_pos_of_current hwf hc
  have hnorm : ((jsTrunc q).tmod (s.size : Int) + (s.size : Int)).tmod (s.size : Int)
      = (jsTrunc q).emod (s.size : Int) := tmod_norm_eq_emod hpos
  have hofflt : ((jsTrunc q).emod (s.size : Int)).toNat < s.size := emod_toNat_lt hpos
  have hr0 := (hwf.2.2.2 c hc).1
  have hlen : (idChain s.heap c s.size).length = s.size := idChain_length _ _ _
  have hhead : (idChain s.heap c s.size).get? 0 = some c := by
    obtain ⟨k, hk⟩ : ∃ k, s.size = k + 1 :=
      ⟨s.size - 1, (Nat.succ_pred_eq_of_pos hpos).symm⟩
    rw [hk]
    rfl
  have hlast := ring_prev_head_get? hr0 hhead
  rw [hlen] at hlast
  obtain ⟨b, hb, hpb⟩ := ring_prevIter_get? hr0
    (((jsTrunc q).emod (s.size : Int)).toNat) (s.size - 1) ((s.heap c).prev)
    (by omega) hlast
  have hresult : s.getFurthestItem (.finite q) = .ok ((s.heap b).value) := by
    simp only [RotatableSet.getFurthestItem, hc, hnorm]
    rw [hpb]
  have hwalk : prevIter s.heap c (1 + ((jsTrunc q).emod (s.size : Int)).toNat) = b := by
    rw [Nat.add_comm, prevIter_succ, hpb]
  rw [hwalk]
  refine ⟨hresult, ?_⟩
  have harr : s.toArray = (idChain s.heap c s.size).map (fun i => (s.heap i).value) := by
    simp [RotatableSet.toArray, hc, collectValues_eq_map]
  rw [harr, List.get?_map, hb]
  rfl

/-- C6: on a non-empty set of size `n`, `getFurthestItem(k)` for finite `k`
returns the value `1 + (((trunc k) % n + n) % n)` steps behind the cursor
(JS truncated `%`, equivalently the floored modulus of `trunc k`), which is
`toArray`'s entry at index `n - 1` minus that wrapped offset; the default
index `0` yields `cursor.prev`'s value; non-integer indexes are truncated
toward zero and negative indexes wrap; on a 4-item ring `getFurthestItem 5`
equals `getFurthestItem 1`. -/
theorem claim_C6 [DecidableEq T] [Inhabited T] (s : RotatableSet T) (hwf : WF s)
    (c : Nat) (hc : s.current = some c) (q : ℚ) :
    (((jsTrunc q).tmod (s.size : Int) + (s.size : Int)).tmod (s.size : Int) =
      (jsTrunc q).emod (s.size : Int)) ∧
    (s.getFurthestItem (.finite q) =
      .ok ((s.heap (prevIter s.heap c
        (1 + ((jsTrunc q).emod (s.size : Int)).toNat))).value)) ∧
    (s.toArray.get? (s.size - 1 - ((jsTrunc q).emod (s.size : Int)).toNat) =
      some ((s.heap (prevIter s.heap c
        (1 + ((jsTrunc q).emod (s.size : Int)).toNat))).value)) ∧
    (s.getFurthestItem (.finite 0) = .ok ((s.heap ((s.heap c).prev)).value)) ∧
    ((ofItems [1, 2, 3, 4] : RotatableSet ℕ).getFurthestItem (.finite 5) =
      (ofItems [1, 2, 3, 4] : RotatableSet ℕ).getFurthestItem (.finite 1)) := by
  have hpos : 0 < s.size := size_pos_of_current hwf hc
  obtain ⟨h1, h2⟩ := getFurthestItem_spec hwf hc q
  refine ⟨tmod_norm_eq_emod hpos, h1, h2, ?_, by decide⟩
  obtain ⟨h0, _⟩ := getFurthestItem_spec hwf hc 0
  have hz : jsTrunc 0 = 0 := by simp [jsTrunc]
  have hze : (0 : Int).emod ((s.size : Int)) = 0 := Int.zero_emod _
  rw [h0, hz, hze]
  rfl

/-- C6 witness: the 4-ring wrap scenario via the general theorem. -/
theorem claim_C6_witness :
    (ofItems [1, 2, 3, 4] : RotatableSet ℕ).getFurthestItem (.finite 5) =
      .ok (((ofItems [1, 2, 3, 4] : RotatableSet ℕ).heap
        (prevIter (ofItems [1, 2, 3, 4] : RotatableSet ℕ).heap 0
          (1 + ((jsTrunc 5).emod ((ofItems [1, 2, 3, 4] :
            RotatableSet ℕ).size : Int)).toNat))).value) :=
  (claim_C6 (ofItems [1, 2, 3, 4]) (WF_ofItems _) 0 (by decide) 5).2.1

end RotSpec
